import Mathlib

/-
Verification of the docdelve core library (chest store, content model,
search engine, chest database).

The Rust sources are shallowly embedded:
  - Rust strings (String / str) become lists of characters (Str).  Rust
    compares strings by their UTF-8 bytes; UTF-8 byte order coincides with
    code-point order, so character-wise comparison is faithful.
  - BTreeMap<String, V> becomes an association list kept sorted by key.
  - Fallible functions return Except Str (errors carry the exact message
    strings of the source, built with anyhow Error::msg).
  - usize arithmetic uses Nat: the only arithmetic performed is addition of
    scores and indices, which the program never expects to wrap.
-/

/-- Model of Rust strings: a list of characters. -/
abbrev Str := List Char

/-- Convert a Lean string literal to the model type. -/
def str (s : String) : Str := s.data

/-- Model of usize::cmp (and of Rust Ord on integers in general). -/
def natCmp (a b : Nat) : Ordering :=
  if a < b then .lt else if a = b then .eq else .gt

/-- Model of char (byte) comparison: by code point, which matches the
UTF-8 byte order Rust uses on str. -/
def charCmp (a b : Char) : Ordering := natCmp a.toNat b.toNat

/-- Model of Rust lexicographic Ord on Vec / str: element-wise comparison,
with the shorter list less when one is a prefix of the other. -/
def listCmp (cmp : α → α → Ordering) : List α → List α → Ordering
  | [], [] => .eq
  | [], _ :: _ => .lt
  | _ :: _, [] => .gt
  | x :: xs, y :: ys =>
    match cmp x y with
    | .eq => listCmp cmp xs ys
    | o => o

/-- Character-wise string comparison (Rust str::cmp). -/
def strCmp (a b : Str) : Ordering := listCmp charCmp a b

theorem ord_swap_gt {o : Ordering} : o.swap = .gt ↔ o = .lt := by
  cases o <;> simp [Ordering.swap]

theorem ord_swap_eq {o : Ordering} : o.swap = .eq ↔ o = .eq := by
  cases o <;> simp [Ordering.swap]

theorem ord_swap_lt {o : Ordering} : o.swap = .lt ↔ o = .gt := by
  cases o <;> simp [Ordering.swap]

theorem ord_then_eq {o p : Ordering} : o.then p = .eq ↔ o = .eq ∧ p = .eq := by
  cases o <;> simp [Ordering.then]

theorem ord_eq_then {p : Ordering} : Ordering.eq.then p = p := rfl

theorem ord_lt_then {p : Ordering} : Ordering.lt.then p = .lt := rfl

theorem ord_gt_then {p : Ordering} : Ordering.gt.then p = .gt := rfl

theorem ord_swap_then {o p : Ordering} : (o.then p).swap = o.swap.then p.swap := by
  cases o <;> cases p <;> rfl

/-- A comparator that is a total linear order deciding equality, as the
derived and hand-written Ord implementations of the source are. -/
structure LawfulCmp (cmp : α → α → Ordering) : Prop where
  eq_iff : ∀ a b, cmp a b = .eq ↔ a = b
  swap_eq : ∀ a b, (cmp a b).swap = cmp b a
  le_trans : ∀ a b c, cmp a b ≠ .gt → cmp b c ≠ .gt → cmp a c ≠ .gt

/-- The non-strict order induced by a comparator. -/
def cmpLe (cmp : α → α → Ordering) (a b : α) : Prop := cmp a b ≠ .gt

/-- The strict order induced by a comparator. -/
def cmpLt (cmp : α → α → Ordering) (a b : α) : Prop := cmp a b = .lt

instance (cmp : α → α → Ordering) : DecidableRel (cmpLe cmp) := by
  unfold cmpLe; infer_instance

instance (cmp : α → α → Ordering) : DecidableRel (cmpLt cmp) := by
  unfold cmpLt; infer_instance

theorem LawfulCmp.refl {cmp : α → α → Ordering} (h : LawfulCmp cmp) (a : α) :
    cmp a a = .eq := (h.eq_iff a a).mpr rfl

theorem LawfulCmp.gt_iff {cmp : α → α → Ordering} (h : LawfulCmp cmp) (a b : α) :
    cmp a b = .gt ↔ cmp b a = .lt := by
  rw [← h.swap_eq b a, ord_swap_gt]

theorem LawfulCmp.le_total {cmp : α → α → Ordering} (h : LawfulCmp cmp) (a b : α) :
    cmpLe cmp a b ∨ cmpLe cmp b a := by
  unfold cmpLe
  rcases ho : cmp a b with _ | _ | _
  · exact Or.inl (by simp)
  · exact Or.inl (by simp)
  · refine Or.inr ?_
    rw [(h.gt_iff a b).mp ho]
    simp

theorem LawfulCmp.le_antisymm {cmp : α → α → Ordering} (h : LawfulCmp cmp) {a b : α}
    (hab : cmpLe cmp a b) (hba : cmpLe cmp b a) : a = b := by
  unfold cmpLe at hab hba
  rcases ho : cmp a b with _ | _ | _
  · exact absurd ((h.gt_iff b a).mpr ho) hba
  · exact (h.eq_iff a b).mp ho
  · exact absurd ho hab

theorem LawfulCmp.lt_of_le_of_ne {cmp : α → α → Ordering} (h : LawfulCmp cmp) {a b : α}
    (hab : cmpLe cmp a b) (hne : a ≠ b) : cmpLt cmp a b := by
  unfold cmpLe at hab
  unfold cmpLt
  rcases ho : cmp a b with _ | _ | _
  · rfl
  · exact absurd ((h.eq_iff a b).mp ho) hne
  · exact absurd ho hab

theorem LawfulCmp.not_lt_self {cmp : α → α → Ordering} (h : LawfulCmp cmp) (a : α) :
    ¬ cmpLt cmp a a := by
  unfold cmpLt
  rw [h.refl]
  simp

theorem LawfulCmp.lt_asymm {cmp : α → α → Ordering} (h : LawfulCmp cmp) {a b : α}
    (hab : cmpLt cmp a b) (hba : cmpLt cmp b a) : False := by
  unfold cmpLt at hab hba
  have := (h.gt_iff b a).mpr hab
  rw [hba] at this
  cases this

theorem LawfulCmp.ne_of_lt {cmp : α → α → Ordering} (h : LawfulCmp cmp) {a b : α}
    (hab : cmpLt cmp a b) : a ≠ b := by
  intro hh
  subst hh
  exact h.not_lt_self a hab

/-- natCmp is a lawful comparator. -/
theorem lawful_natCmp : LawfulCmp natCmp := by
  refine ⟨?_, ?_, ?_⟩
  · intro a b
    unfold natCmp
    constructor
    · intro hh
      by_cases h1 : a < b
      · simp [h1] at hh
      · by_cases h2 : a = b
        · exact h2
        · simp [h1, h2] at hh
    · intro hh
      subst hh
      simp
  · intro a b
    unfold natCmp
    rcases Nat.lt_trichotomy a b with hlt | heq | hgt
    · have h1 : ¬ b < a := by omega
      have h2 : ¬ b = a := by omega
      simp [hlt, h1, h2, Ordering.swap]
    · subst heq
      simp [Ordering.swap]
    · have h1 : ¬ a < b := by omega
      have h2 : ¬ a = b := by omega
      simp [hgt, h1, h2, Ordering.swap]
  · intro a b c hab hbc
    unfold natCmp at *
    have hb1 : a ≤ b := by
      by_cases h3 : a < b
      · omega
      · by_cases h4 : a = b
        · omega
        · simp [h3, h4] at hab
    have hb2 : b ≤ c := by
      by_cases h3 : b < c
      · omega
      · by_cases h4 : b = c
        · omega
        · simp [h3, h4] at hbc
    by_cases h1 : a < c
    · simp [h1]
    · have h2 : a = c := by omega
      simp [h1, h2]

/-- A lawful comparator transported along an injective projection stays
lawful. -/
theorem lawful_of_injective {cmp : β → β → Ordering} (h : LawfulCmp cmp)
    (f : α → β) (hf : Function.Injective f) :
    LawfulCmp (fun a b => cmp (f a) (f b)) := by
  refine ⟨?_, ?_, ?_⟩
  · intro a b
    rw [h.eq_iff]
    exact ⟨fun hh => hf hh, fun hh => hh ▸ rfl⟩
  · intro a b
    exact h.swap_eq (f a) (f b)
  · intro a b c
    exact h.le_trans (f a) (f b) (f c)

/-- charCmp is a lawful comparator. -/
theorem lawful_charCmp : LawfulCmp charCmp := by
  have hinj : Function.Injective Char.toNat := by
    intro a b hh
    exact Char.eq_of_val_eq (UInt32.ext hh)
  exact lawful_of_injective lawful_natCmp Char.toNat hinj

/-- Swapping a lawful comparator (used for descending orders) stays
lawful. -/
theorem lawful_swapCmp {cmp : α → α → Ordering} (h : LawfulCmp cmp) :
    LawfulCmp (fun a b => (cmp a b).swap) := by
  refine ⟨?_, ?_, ?_⟩
  · intro a b
    rw [ord_swap_eq]
    exact h.eq_iff a b
  · intro a b
    rw [h.swap_eq a b]
  · intro a b c hab hbc
    have h1 : cmp b a ≠ .gt := by
      intro hh
      apply hab
      rw [ord_swap_gt]
      exact (h.gt_iff b a).mp hh
    have h2 : cmp c b ≠ .gt := by
      intro hh
      apply hbc
      rw [ord_swap_gt]
      exact (h.gt_iff c b).mp hh
    have h3 := h.le_trans c b a h2 h1
    intro hh
    rw [ord_swap_gt] at hh
    exact h3 ((h.gt_iff c a).mpr hh)

/-- Lexicographic combination through two projections, as produced by the
Ordering::then_with chains of the source, is lawful when the projections
jointly determine the value. -/
theorem lawful_lexProj {cmpF : β → β → Ordering} {cmpG : γ → γ → Ordering}
    (hF : LawfulCmp cmpF) (hG : LawfulCmp cmpG) (f : α → β) (g : α → γ)
    (hinj : ∀ a b, f a = f b → g a = g b → a = b) :
    LawfulCmp (fun a b => (cmpF (f a) (f b)).then (cmpG (g a) (g b))) := by
  refine ⟨?_, ?_, ?_⟩
  · intro a b
    rw [ord_then_eq]
    constructor
    · intro hh
      exact hinj a b ((hF.eq_iff _ _).mp hh.1) ((hG.eq_iff _ _).mp hh.2)
    · intro hh
      subst hh
      exact ⟨hF.refl (f a), hG.refl (g a)⟩
  · intro a b
    rw [ord_swap_then, hF.swap_eq, hG.swap_eq]
  · intro a b c hab hbc
    rcases h1 : cmpF (f a) (f b) with _ | _ | _ <;> rw [h1] at hab <;>
        rcases h2 : cmpF (f b) (f c) with _ | _ | _ <;> rw [h2] at hbc
    · -- lt, lt
      have h3 : cmpF (f a) (f c) ≠ .gt :=
        hF.le_trans (f a) (f b) (f c) (by simp [h1]) (by simp [h2])
      rcases h4 : cmpF (f a) (f c) with _ | _ | _
      · rw [ord_lt_then]; simp
      · exfalso
        have heq : f a = f c := (hF.eq_iff _ _).mp h4
        rw [heq] at h1
        have := (hF.gt_iff (f b) (f c)).mpr h1
        rw [h2] at this
        cases this
      · exact absurd h4 h3
    · -- lt, eq
      have heq : f b = f c := (hF.eq_iff _ _).mp h2
      rw [← heq, h1, ord_lt_then]
      simp
    · -- lt, gt
      rw [ord_gt_then] at hbc
      exact absurd rfl hbc
    · -- eq, lt
      have heq : f a = f b := (hF.eq_iff _ _).mp h1
      rw [heq, h2, ord_lt_then]
      simp
    · -- eq, eq
      have heq1 : f a = f b := (hF.eq_iff _ _).mp h1
      have heq2 : f b = f c := (hF.eq_iff _ _).mp h2
      rw [ord_eq_then] at hab hbc
      rw [heq1, heq2, hF.refl, ord_eq_then]
      exact hG.le_trans (g a) (g b) (g c) hab hbc
    · -- eq, gt
      rw [ord_gt_then] at hbc
      exact absurd rfl hbc
    · -- gt, *
      rw [ord_gt_then] at hab
      exact absurd rfl hab
    · rw [ord_gt_then] at hab
      exact absurd rfl hab
    · rw [ord_gt_then] at hab
      exact absurd rfl hab

/-- Lists ordered element-wise by a lawful comparator compare lawfully. -/
theorem lawful_listCmp {cmp : α → α → Ordering} (h : LawfulCmp cmp) :
    LawfulCmp (listCmp cmp) := by
  refine ⟨?_, ?_, ?_⟩
  · intro a b
    induction a generalizing b with
    | nil => cases b <;> simp [listCmp]
    | cons x xs ih =>
      cases b with
      | nil => simp [listCmp]
      | cons y ys =>
        simp only [listCmp]
        rcases ho : cmp x y with _ | _ | _
        · simp only []
          constructor
          · intro hh; cases hh
          · intro hh
            injection hh with hh1 hh2
            rw [(h.eq_iff x y).mpr hh1] at ho
            cases ho
        · have heq : x = y := (h.eq_iff x y).mp ho
          subst heq
          rw [ih ys]
          constructor
          · intro hh; rw [hh]
          · intro hh; injection hh
        · simp only []
          constructor
          · intro hh; cases hh
          · intro hh
            injection hh with hh1 hh2
            rw [(h.eq_iff x y).mpr hh1] at ho
            cases ho
  · intro a b
    induction a generalizing b with
    | nil => cases b <;> rfl
    | cons x xs ih =>
      cases b with
      | nil => rfl
      | cons y ys =>
        simp only [listCmp]
        rcases ho : cmp x y with _ | _ | _
        · have := (h.gt_iff y x).mpr ho
          rw [this]
          rfl
        · have heq : x = y := (h.eq_iff x y).mp ho
          subst heq
          rw [h.refl]
          exact ih ys
        · have hlt : cmp y x = .lt := (h.gt_iff x y).mp ho
          rw [hlt]
          rfl
  · intro a b c hab hbc
    induction a generalizing b c with
    | nil =>
      cases c with
      | nil => simp [listCmp]
      | cons z zs => simp [listCmp]
    | cons x xs ih =>
      cases b with
      | nil => cases c <;> simp [listCmp] at hab
      | cons y ys =>
        cases c with
        | nil => simp [listCmp] at hbc
        | cons z zs =>
          simp only [listCmp] at hab hbc ⊢
          rcases h1 : cmp x y with _ | _ | _ <;> rw [h1] at hab <;>
              rcases h2 : cmp y z with _ | _ | _ <;> rw [h2] at hbc
          · -- lt, lt
            have h3 : cmp x z ≠ .gt :=
              h.le_trans x y z (by simp [h1]) (by simp [h2])
            rcases h4 : cmp x z with _ | _ | _
            · simp
            · exfalso
              have heq : x = z := (h.eq_iff _ _).mp h4
              subst heq
              have := (h.gt_iff y x).mpr h1
              rw [h2] at this
              cases this
            · exact absurd h4 h3
          · -- lt, eq
            have heq : y = z := (h.eq_iff _ _).mp h2
            subst heq
            rw [h1]
            simp
          · -- lt, gt
            simp at hbc
          · -- eq, lt
            have heq : x = y := (h.eq_iff _ _).mp h1
            subst heq
            rw [h2]
            simp
          · -- eq, eq
            have heq : x = y := (h.eq_iff _ _).mp h1
            subst heq
            rw [h2]
            exact ih ys zs hab hbc
          · -- eq, gt
            simp at hbc
          · simp at hab
          · simp at hab
          · simp at hab

/-- strCmp is a lawful comparator. -/
theorem lawful_strCmp : LawfulCmp strCmp := lawful_listCmp lawful_charCmp

/-- The scan inside Vec::dedup and Vec::dedup_by: drop every element
equivalent (under eqb) to the last retained element. -/
def dedupTail (eqb : α → α → Bool) (kept : α) : List α → List α
  | [] => []
  | b :: t => if eqb kept b then dedupTail eqb kept t else b :: dedupTail eqb b t

/-- Model of Vec::dedup and Vec::dedup_by: collapse each run of
consecutive equivalent elements to its first element. -/
def dedupAdjacentBy (eqb : α → α → Bool) : List α → List α
  | [] => []
  | a :: t => a :: dedupTail eqb a t

theorem mem_cons_dedupTail {eqb : α → α → Bool}
    (heqb : ∀ x y, eqb x y = true ↔ x = y) (x : α) :
    ∀ (l : List α) (kept : α),
      (x ∈ kept :: dedupTail eqb kept l ↔ x ∈ kept :: l) := by
  intro l
  induction l with
  | nil => intro kept; simp [dedupTail]
  | cons b t ih =>
    intro kept
    simp only [dedupTail]
    by_cases he : eqb kept b = true
    · have hb : kept = b := (heqb kept b).mp he
      subst hb
      rw [he]
      simp only [if_true]
      rw [ih kept]
      simp only [List.mem_cons]
      tauto
    · rw [if_neg he]
      simp only [List.mem_cons]
      have hib := ih b
      simp only [List.mem_cons] at hib
      tauto

theorem mem_dedupAdjacentBy {eqb : α → α → Bool}
    (heqb : ∀ x y, eqb x y = true ↔ x = y) (x : α) :
    ∀ l : List α, x ∈ dedupAdjacentBy eqb l ↔ x ∈ l := by
  intro l
  cases l with
  | nil => simp [dedupAdjacentBy]
  | cons a t =>
    simp only [dedupAdjacentBy]
    exact mem_cons_dedupTail heqb x t a

theorem pairwise_lt_cons_dedupTail {cmp : α → α → Ordering}
    (hlaw : LawfulCmp cmp) {eqb : α → α → Bool}
    (heqb : ∀ x y, eqb x y = true ↔ x = y) :
    ∀ (l : List α) (kept : α), List.Pairwise (cmpLe cmp) (kept :: l) →
      List.Pairwise (cmpLt cmp) (kept :: dedupTail eqb kept l) := by
  intro l
  induction l with
  | nil => intro kept _; simp [dedupTail]
  | cons b t ih =>
    intro kept hs
    rw [List.pairwise_cons] at hs
    obtain ⟨hkle, hs2⟩ := hs
    rw [List.pairwise_cons] at hs2
    obtain ⟨hble, hs3⟩ := hs2
    simp only [dedupTail]
    by_cases he : eqb kept b = true
    · have hb : kept = b := (heqb kept b).mp he
      subst hb
      rw [he]
      simp only [if_true]
      refine ih kept ?_
      rw [List.pairwise_cons]
      exact ⟨fun x hx => hkle x (List.mem_cons_of_mem kept hx), hs3⟩
    · rw [if_neg he]
      rw [List.pairwise_cons]
      constructor
      · intro x hx
        have hxmem : x ∈ b :: t := by
          have := mem_cons_dedupTail heqb x t b
          exact this.mp hx
        have hle : cmpLe cmp kept x := hkle x hxmem
        refine hlaw.lt_of_le_of_ne hle ?_
        intro hax
        subst hax
        rcases List.mem_cons.mp hxmem with hh | hh
        · exact he ((heqb kept b).mpr hh)
        · have h1 : cmpLe cmp b kept := hble kept hh
          have h2 : cmpLe cmp kept b := hkle b (List.mem_cons_self b t)
          exact he ((heqb kept b).mpr (hlaw.le_antisymm h2 h1))
      · refine ih b ?_
        rw [List.pairwise_cons]
        exact ⟨hble, hs3⟩

theorem pairwise_lt_dedupAdjacentBy {cmp : α → α → Ordering}
    (hlaw : LawfulCmp cmp) {eqb : α → α → Bool}
    (heqb : ∀ x y, eqb x y = true ↔ x = y) :
    ∀ l : List α, List.Pairwise (cmpLe cmp) l →
      List.Pairwise (cmpLt cmp) (dedupAdjacentBy eqb l) := by
  intro l hs
  cases l with
  | nil => simp [dedupAdjacentBy]
  | cons a t =>
    simp only [dedupAdjacentBy]
    exact pairwise_lt_cons_dedupTail hlaw heqb t a hs

theorem strict_sorted_unique {cmp : α → α → Ordering} (hlaw : LawfulCmp cmp) :
    ∀ l m : List α, List.Pairwise (cmpLt cmp) l → List.Pairwise (cmpLt cmp) m →
      (∀ x, x ∈ l ↔ x ∈ m) → l = m := by
  intro l
  induction l with
  | nil =>
    intro m _ _ hmem
    cases m with
    | nil => rfl
    | cons b m2 => exact absurd ((hmem b).mpr (List.mem_cons_self b m2)) (by simp)
  | cons a l2 ihl =>
    intro m hl hm hmem
    cases m with
    | nil => exact absurd ((hmem a).mp (List.mem_cons_self a l2)) (by simp)
    | cons b m2 =>
      have hab : a = b := by
        rcases List.mem_cons.mp ((hmem a).mp (List.mem_cons_self a l2)) with hh | hh
        · exact hh
        · rcases List.mem_cons.mp ((hmem b).mpr (List.mem_cons_self b m2)) with hh2 | hh2
          · exact hh2.symm
          · exfalso
            exact hlaw.lt_asymm ((List.pairwise_cons.mp hl).1 b hh2)
              ((List.pairwise_cons.mp hm).1 a hh)
      subst hab
      have hmem2 : ∀ x, x ∈ l2 ↔ x ∈ m2 := by
        intro x
        constructor
        · intro hx
          rcases List.mem_cons.mp ((hmem x).mp (List.mem_cons_of_mem a hx)) with hh | hh
          · exfalso
            subst hh
            exact hlaw.not_lt_self x ((List.pairwise_cons.mp hl).1 x hx)
          · exact hh
        · intro hx
          rcases List.mem_cons.mp ((hmem x).mpr (List.mem_cons_of_mem a hx)) with hh | hh
          · exfalso
            subst hh
            exact hlaw.not_lt_self x ((List.pairwise_cons.mp hm).1 x hx)
          · exact hh
      rw [ihl m2 (List.pairwise_cons.mp hl).2 (List.pairwise_cons.mp hm).2 hmem2]

theorem mem_insertionSort {r : α → α → Prop} [DecidableRel r] (l : List α) (x : α) :
    x ∈ List.insertionSort r l ↔ x ∈ l :=
  (List.perm_insertionSort r l).mem_iff

/-- Sorting with a lawful comparator then removing adjacent duplicates is a
canonical form: it depends only on the set of elements. -/
theorem sortDedup_canonical {cmp : α → α → Ordering} (hlaw : LawfulCmp cmp)
    {eqb : α → α → Bool} (heqb : ∀ x y, eqb x y = true ↔ x = y)
    (l m : List α) (hmem : ∀ x, x ∈ l ↔ x ∈ m) :
    dedupAdjacentBy eqb (List.insertionSort (cmpLe cmp) l)
      = dedupAdjacentBy eqb (List.insertionSort (cmpLe cmp) m) := by
  haveI : IsTotal α (cmpLe cmp) := ⟨hlaw.le_total⟩
  haveI : IsTrans α (cmpLe cmp) := ⟨fun a b c => hlaw.le_trans a b c⟩
  have hsl := List.sorted_insertionSort (cmpLe cmp) l
  have hsm := List.sorted_insertionSort (cmpLe cmp) m
  refine strict_sorted_unique hlaw _ _
    (pairwise_lt_dedupAdjacentBy hlaw heqb _ hsl)
    (pairwise_lt_dedupAdjacentBy hlaw heqb _ hsm) ?_
  intro x
  rw [mem_dedupAdjacentBy heqb, mem_dedupAdjacentBy heqb,
    mem_insertionSort, mem_insertionSort]
  exact hmem x

/-- Model of str::split on a character class: the pieces between separator
characters, keeping empty pieces (Rust always yields at least one piece). -/
def splitOnPred (p : Char → Bool) : Str → List Str
  | [] => [[]]
  | c :: rest =>
    if p c then [] :: splitOnPred p rest
    else
      match splitOnPred p rest with
      | [] => [[c]]
      | w :: ws => (c :: w) :: ws

theorem splitOnPred_ne_nil (p : Char → Bool) (s : Str) : splitOnPred p s ≠ [] := by
  cases s with
  | nil => simp [splitOnPred]
  | cons c rest =>
    simp only [splitOnPred]
    by_cases hc : p c = true
    · simp [hc]
    · rw [if_neg hc]
      cases splitOnPred p rest <;> simp

theorem splitOnPred_append_sep (p : Char → Bool) (a b : Str) (c : Char)
    (hc : p c = true) :
    splitOnPred p (a ++ c :: b) = splitOnPred p a ++ splitOnPred p b := by
  induction a with
  | nil => simp [splitOnPred, hc]
  | cons d a2 ih =>
    simp only [List.cons_append, splitOnPred]
    by_cases hd : p d = true
    · simp [hd, ih]
    · rw [if_neg hd, if_neg hd]
      have ih2 : splitOnPred p (a2.append (c :: b))
          = splitOnPred p a2 ++ splitOnPred p b := ih
      rw [ih2]
      have hne := splitOnPred_ne_nil p a2
      cases hsp : splitOnPred p a2 with
      | nil => exact absurd hsp hne
      | cons w ws => simp

/-- Model of u32::from_str: an optional leading plus sign, then one or more
ASCII digits, with the value required to fit in 32 bits. -/
def parse_u32 (s : Str) : Option Nat :=
  let digits := match s with
    | '+' :: rest => rest
    | _ => s
  if digits = [] then none
  else if digits.all (fun c => c.isDigit) then
    let v := digits.foldl (fun acc c => acc * 10 + (c.toNat - 48)) 0
    if v < 4294967296 then some v else none
  else none

/-- Model of str::strip_suffix. -/
def strip_suffix (s suffix : Str) : Option Str :=
  if s.length < suffix.length then none
  else if s.drop (s.length - suffix.length) = suffix then
    some (s.take (s.length - suffix.length))
  else none

theorem strip_suffix_some_iff (s suffix out : Str) :
    strip_suffix s suffix = some out ↔ s = out ++ suffix := by
  unfold strip_suffix
  constructor
  · intro hh
    by_cases h1 : s.length < suffix.length
    · simp [h1] at hh
    · rw [if_neg h1] at hh
      by_cases h2 : s.drop (s.length - suffix.length) = suffix
      · rw [if_pos h2] at hh
        injection hh with hh
        subst hh
        conv_lhs => rw [← List.take_append_drop (s.length - suffix.length) s]
        rw [h2]
      · simp [h2] at hh
  · intro hh
    subst hh
    have h1 : ¬ (out ++ suffix).length < suffix.length := by
      simp [List.length_append]
    rw [if_neg h1]
    have hlen : (out ++ suffix).length - suffix.length = out.length := by
      simp [List.length_append]
    rw [hlen]
    rw [List.drop_left, List.take_left]
    simp

theorem strip_suffix_none_iff (s suffix : Str) :
    strip_suffix s suffix = none ↔ ∀ out, s ≠ out ++ suffix := by
  constructor
  · intro hh out hcon
    rw [(strip_suffix_some_iff s suffix out).mpr hcon] at hh
    cases hh
  · intro hh
    cases hsp : strip_suffix s suffix with
    | none => rfl
    | some out => exact absurd ((strip_suffix_some_iff s suffix out).mp hsp) (hh out)

/-
Chest store (src/lib/src/chest.rs).

File payloads (Vec<u8> in the source) are kept abstract as a type
parameter V: no chest-store operation modelled here inspects the bytes.
The BTreeMap of a directory is an association list sorted by name
(strCmp); the ChestDirectory wrapper struct of the source is inlined as
that list.  Functions that mutate the tree through &mut self return the
post-state next to the result, because the source can leave the tree
changed even when it returns an error.
-/

/-- Tracks a single file's contents: in memory, or stored in the backing
zip archive. -/
inductive ChestFile (V : Type) where
  | inMemoryFile (contents : V)
  | zipBackedFile

/-- Directory entry for a name in the chest. -/
inductive ChestDirectoryEntry (V : Type) where
  | file (f : ChestFile V)
  | directory (contents : List (Str × ChestDirectoryEntry V))

/-- Directory listing of a chest directory: a name-sorted map. -/
abbrev ChestDirectory (V : Type) := List (Str × ChestDirectoryEntry V)

/-- Directory listing entry for querying the contents of a chest. -/
inductive ChestListEntry where
  | file (name : Str)
  | directory (name : Str)
deriving DecidableEq

deriving instance DecidableEq for Except

/-- BTreeMap::get. -/
def btGet (m : List (Str × β)) (k : Str) : Option β :=
  match m.find? (fun e => decide (e.1 = k)) with
  | some e => some e.2
  | none => none

/-- BTreeMap::insert (also covering entry().or_insert_with followed by an
overwrite): keeps keys sorted and unique. -/
def btInsert (k : Str) (v : β) : List (Str × β) → List (Str × β)
  | [] => [(k, v)]
  | (k2, v2) :: rest =>
    match strCmp k k2 with
    | .lt => (k, v) :: (k2, v2) :: rest
    | .eq => (k, v) :: rest
    | .gt => (k2, v2) :: btInsert k v rest

/-- BTreeMap::remove (the key occurs at most once in a sorted map). -/
def btRemove (k : Str) : List (Str × β) → List (Str × β)
  | [] => []
  | (k2, v2) :: rest => if k = k2 then rest else (k2, v2) :: btRemove k rest

/-- Tracks a bundle of files called a chest.  The backing zip archive is
modelled as a lookup from entry names to payloads. -/
structure Chest (V : Type) where
  root : ChestDirectory V
  backing_zip : Option (Str → Option V)
  path : Option Str

/-- Create a new, empty chest. -/
def Chest.new (V : Type) : Chest V := ⟨[], none, none⟩

/-- Rust char::is_ascii_control: U+0000 through U+001F, and U+007F. -/
def isAsciiControl (ch : Char) : Bool := ch.toNat < 32 || ch.toNat == 127

/-- The characters rejected by Chest::validate_name. -/
def invalidNameChar (ch : Char) : Bool :=
  isAsciiControl ch || ch == '/' || ch == '\\' || ch == '<' || ch == '>' ||
    ch == '"' || ch == ':' || ch == '|' || ch == '?' || ch == '*'

/-- Check a component of a path to see if it is valid. -/
def Chest.validate_name (name : Str) : Except Str Unit :=
  if name = [] then .error (str "Path components cannot be empty")
  else if name.any invalidNameChar then
    .error (str "Path component has invalid characters")
  else .ok ()

/-- Split a path on '/' (str::split yields at least one piece). -/
def splitPath (path : Str) : List Str := splitOnPred (fun c => c == '/') path

/-- The (directory components, filename) decomposition shared by
read_entry, write_file_entry and remove: pop the final component, then
drop a single leading empty component (a tolerated leading slash). -/
def pathParts (path : Str) : List Str × Str :=
  let parts := splitPath path
  let dirs := parts.dropLast
  let filename := parts.getLastD []
  let dirs2 := match dirs with
    | [] :: rest => rest
    | _ => dirs
  (dirs2, filename)

/-- Traverse into the directory named by the given components (the shared
read-only descent loop of read_entry and list_dir). -/
def findDir (parts : List Str) (current : ChestDirectory V) :
    Except Str (ChestDirectory V) :=
  match parts with
  | [] => .ok current
  | part :: rest =>
    match btGet current part with
    | some (.directory d) => findDir rest d
    | _ => .error (str "Path not found")

/-- Read a directory entry at the given path (the source passes the entry
to a callback; the model returns it). -/
def Chest.read_entry (chest : Chest V) (path : Str) :
    Except Str (ChestDirectoryEntry V) :=
  let parts := pathParts path
  match findDir parts.1 chest.root with
  | .error e => .error e
  | .ok current =>
    match btGet current parts.2 with
    | some entry => .ok entry
    | none => .error (str "Path not found")

/-- Read a file entry at the given path. -/
def Chest.read_file_entry (chest : Chest V) (path : Str) :
    Except Str (ChestFile V) :=
  match chest.read_entry path with
  | .ok (.file f) => .ok f
  | .ok (.directory _) => .error (str "File not found")
  | .error e => .error e

/-- Determines if a chest contains a path. -/
def Chest.contains (chest : Chest V) (filename : Str) : Bool :=
  match chest.read_file_entry filename with
  | .ok _ => true
  | .error _ => false

/-- Read a file from the chest. -/
def Chest.read (chest : Chest V) (path : Str) : Except Str V :=
  match chest.read_file_entry path with
  | .error e => .error e
  | .ok (.inMemoryFile contents) => .ok contents
  | .ok .zipBackedFile =>
    match chest.backing_zip with
    | some zip =>
      let zpath := match path with
        | '/' :: rest => rest
        | _ => path
      match zip zpath with
      | some contents => .ok contents
      | none => .error (str "File not found in zip")
    | none =>
      .error (str "File is backed by a zip file, but no backing zip file is present")

/-- The descending loop of write_file_entry: validates and creates
intermediate directories; directories created before a failure remain. -/
def writeDescend : List Str → Str → V → ChestDirectory V →
    Except Str Unit × ChestDirectory V
  | [], filename, data, dir =>
    (match Chest.validate_name filename with
     | .error e => (.error e, dir)
     | .ok () =>
       match btGet dir filename with
       | some (.directory _) =>
         (.error (str "Cannot write file because a directory already exists there"), dir)
       | _ => (.ok (), btInsert filename (.file (.inMemoryFile data)) dir))
  | part :: rest, filename, data, dir =>
    (match Chest.validate_name part with
     | .error e => (.error e, dir)
     | .ok () =>
       match btGet dir part with
       | some (.directory d) =>
         let r := writeDescend rest filename data d
         (r.1, btInsert part (.directory r.2) dir)
       | some (.file _) =>
         (.error (str "Cannot create directory because a file already exists there"), dir)
       | none =>
         let r := writeDescend rest filename data []
         (r.1, btInsert part (.directory r.2) dir))

/-- Write a file to the chest, creating intermediate directories. -/
def Chest.write (chest : Chest V) (path : Str) (data : V) :
    Except Str Unit × Chest V :=
  let parts := pathParts path
  let r := writeDescend parts.1 parts.2 data chest.root
  (r.1, ⟨r.2, chest.backing_zip, chest.path⟩)

/-- The descending loop of remove.  The source reuses the
entry().or_insert_with() traversal of the write path, so it too creates
missing intermediate directories, even though it is a removal. -/
def removeDescend : List Str → Str → ChestDirectory V →
    Except Str Unit × ChestDirectory V
  | [], filename, dir =>
    (match Chest.validate_name filename with
     | .error e => (.error e, dir)
     | .ok () =>
       if (btGet dir filename).isSome then (.ok (), btRemove filename dir)
       else (.error (str "Path not found"), dir))
  | part :: rest, filename, dir =>
    (match Chest.validate_name part with
     | .error e => (.error e, dir)
     | .ok () =>
       match btGet dir part with
       | some (.directory d) =>
         let r := removeDescend rest filename d
         (r.1, btInsert part (.directory r.2) dir)
       | some (.file _) => (.error (str "Path not found"), dir)
       | none =>
         let r := removeDescend rest filename []
         (r.1, btInsert part (.directory r.2) dir))

/-- Removes a file or directory at the given path. -/
def Chest.remove (chest : Chest V) (path : Str) :
    Except Str Unit × Chest V :=
  let parts := pathParts path
  let r := removeDescend parts.1 parts.2 chest.root
  (r.1, ⟨r.2, chest.backing_zip, chest.path⟩)

/-- Get a directory listing for a directory (tolerates a leading and a
trailing slash; listing order is the name-sorted map order). -/
def Chest.list_dir (chest : Chest V) (path : Str) :
    Except Str (List ChestListEntry) :=
  let parts0 := splitPath path
  let parts1 := match parts0 with
    | [] :: rest => rest
    | _ => parts0
  let parts2 := match parts1.getLast? with
    | some [] => parts1.dropLast
    | _ => parts1
  match findDir parts2 chest.root with
  | .error e => .error e
  | .ok current =>
    .ok (current.map (fun e =>
      match e.2 with
      | .directory _ => ChestListEntry.directory e.1
      | .file _ => ChestListEntry.file e.1))

/-- Transforms a chest path (Chest::transform_path). -/
def Chest.transform_path (path pattern replacement : Str) : Option Str :=
  if path = pattern then
    if replacement.head? = some '/' then some replacement.tail
    else some replacement
  else if ¬ (pattern.head? = some '/') then
    match strip_suffix path ('/' :: pattern) with
    | some pre =>
      if replacement.head? = some '/' then some replacement.tail
      else some (pre ++ '/' :: replacement)
    | none => none
  else none

/-- The InvalidName error kind: the two messages validate_name produces. -/
def invalidNameError (r : Except Str Unit) : Prop :=
  r = .error (str "Path components cannot be empty") ∨
    r = .error (str "Path component has invalid characters")

theorem validate_name_fails {name : Str}
    (hbad : name = [] ∨ name.any invalidNameChar = true) :
    invalidNameError (Chest.validate_name name) := by
  unfold Chest.validate_name
  rcases hbad with hh | hh
  · rw [if_pos hh]
    exact Or.inl rfl
  · have hne : name ≠ [] := by
      intro hcon
      rw [hcon] at hh
      simp at hh
    rw [if_neg hne, if_pos hh]
    exact Or.inr rfl

theorem splitOnPred_no_sep (p : Char → Bool) (s : Str)
    (hs : ∀ c ∈ s, p c = false) : splitOnPred p s = [s] := by
  induction s with
  | nil => rfl
  | cons c rest ih =>
    have hc : p c = false := hs c (List.mem_cons_self c rest)
    have hrest : splitOnPred p rest = [rest] :=
      ih (fun d hd => hs d (List.mem_cons_of_mem c hd))
    simp only [splitOnPred]
    rw [hc]
    simp only [Bool.false_eq_true, if_false]
    rw [hrest]

theorem splitPath_cons_slash (p : Str) :
    splitPath ('/' :: p) = [] :: splitPath p := rfl

theorem splitPath_ne_nil (p : Str) : splitPath p ≠ [] :=
  splitOnPred_ne_nil _ p

/-- If a path does not begin with a slash, the first split component is
nonempty. -/
theorem splitPath_head_ne_nil (p : Str) (hp : p ≠ [])
    (hh : p.head? ≠ some '/') :
    ∃ w ws, splitPath p = w :: ws ∧ w ≠ [] := by
  match p with
  | [] => exact absurd rfl hp
  | c :: rest =>
    have hc : c ≠ '/' := by
      intro hcon
      subst hcon
      exact hh rfl
    unfold splitPath splitOnPred
    have hcb : (c == '/') = false := by
      simp [hc]
    rw [hcb]
    simp only [Bool.false_eq_true, if_false]
    have hne := splitOnPred_ne_nil (fun ch => ch == '/') rest
    cases hsp : splitOnPred (fun ch => ch == '/') rest with
    | nil => exact absurd hsp hne
    | cons w ws => exact ⟨c :: w, ws, rfl, by simp⟩

/-- A tolerated leading slash: the shared path decomposition ignores it. -/
theorem pathParts_cons_slash (p : Str) (hh : p.head? ≠ some '/') :
    pathParts ('/' :: p) = pathParts p := by
  match p with
  | [] => rfl
  | c :: rest =>
    have hp : (c :: rest : Str) ≠ [] := by simp
    obtain ⟨w, ws, hsp, hwne⟩ := splitPath_head_ne_nil (c :: rest) hp hh
    unfold pathParts
    rw [splitPath_cons_slash, hsp]
    cases ws with
    | nil =>
      simp only [List.dropLast]
      cases w with
      | nil => exact absurd rfl hwne
      | cons a as => rfl
    | cons w2 ws2 =>
      simp only [List.dropLast_cons₂]
      have hgl : ([] :: w :: w2 :: ws2 : List Str).getLastD []
          = (w :: w2 :: ws2 : List Str).getLastD [] := by
        simp [List.getLastD]
      rw [hgl]
      cases w with
      | nil => exact absurd rfl hwne
      | cons a as => rfl

theorem read_entry_cons_slash (chest : Chest V) (p : Str)
    (hh : p.head? ≠ some '/') :
    chest.read_entry ('/' :: p) = chest.read_entry p := by
  unfold Chest.read_entry
  rw [pathParts_cons_slash p hh]

theorem contains_cons_slash (chest : Chest V) (p : Str)
    (hh : p.head? ≠ some '/') :
    chest.contains ('/' :: p) = chest.contains p := by
  unfold Chest.contains Chest.read_file_entry
  rw [read_entry_cons_slash chest p hh]

mutual

/-- Well-formed chests: no directory entry has an empty name.  Every chest
built through the public API satisfies this because every inserted
component passes validate_name. -/
def noEmptyNames : ChestDirectoryEntry V → Bool
  | .file _ => true
  | .directory d => noEmptyNamesDir d

/-- Well-formedness of a single directory level (see noEmptyNames). -/
def noEmptyNamesDir : ChestDirectory V → Bool
  | [] => true
  | (k, e) :: rest => decide (k ≠ []) && noEmptyNames e && noEmptyNamesDir rest

end

theorem noEmptyNamesDir_mem {dir : ChestDirectory V}
    (hd : noEmptyNamesDir dir = true) {k : Str} {e : ChestDirectoryEntry V}
    (hmem : (k, e) ∈ dir) : k ≠ [] ∧ noEmptyNames e = true := by
  induction dir with
  | nil => cases hmem
  | cons h2 t ih =>
    obtain ⟨k2, e2⟩ := h2
    unfold noEmptyNamesDir at hd
    simp only [Bool.and_eq_true, decide_eq_true_eq] at hd
    rcases List.mem_cons.mp hmem with hh | hh
    · injection hh with hh1 hh2
      subst hh1
      exact ⟨hd.1.1, hh2 ▸ hd.1.2⟩
    · exact ih hd.2 hh

theorem btGet_mem {m : List (Str × β)} {k : Str} {v : β}
    (hg : btGet m k = some v) : (k, v) ∈ m := by
  unfold btGet at hg
  cases hf : m.find? (fun e => decide (e.1 = k)) with
  | none => rw [hf] at hg; cases hg
  | some e =>
    rw [hf] at hg
    injection hg with hg
    have hmem := List.mem_of_find?_eq_some hf
    have hpred := List.find?_some hf
    simp only [decide_eq_true_eq] at hpred
    have : e = (k, v) := by
      obtain ⟨e1, e2⟩ := e
      simp only at hpred hg
      rw [hpred, hg]
    exact this ▸ hmem

theorem findDir_noEmpty {parts : List Str} {dir cur : ChestDirectory V}
    (hd : noEmptyNamesDir dir = true) (hf : findDir parts dir = .ok cur) :
    noEmptyNamesDir cur = true := by
  induction parts generalizing dir with
  | nil =>
    unfold findDir at hf
    injection hf with hf
    exact hf ▸ hd
  | cons part rest ih =>
    unfold findDir at hf
    cases hg : btGet dir part with
    | none => rw [hg] at hf; cases hf
    | some entry =>
      cases entry with
      | file f => rw [hg] at hf; cases hf
      | directory d =>
        rw [hg] at hf
        have := (noEmptyNamesDir_mem hd (btGet_mem hg)).2
        unfold noEmptyNames at this
        exact ih this hf

theorem btGet_nil_of_noEmpty {dir : ChestDirectory V}
    (hd : noEmptyNamesDir dir = true) : btGet dir ([] : Str) = none := by
  cases hg : btGet dir ([] : Str) with
  | none => rfl
  | some v =>
    have := (noEmptyNamesDir_mem hd (btGet_mem hg)).1
    exact absurd rfl this

/-- A trailing slash is not tolerated by the file lookup: the final empty
component never names anything in a well-formed chest. -/
theorem contains_append_slash (chest : Chest V) (p : Str)
    (hne : noEmptyNamesDir chest.root = true) :
    chest.contains (p ++ ['/']) = false := by
  have hsplit : splitPath (p ++ ['/']) = splitPath p ++ [[]] := by
    unfold splitPath
    have := splitOnPred_append_sep (fun c => c == '/') p [] '/' (by simp)
    simpa using this
  unfold Chest.contains Chest.read_file_entry Chest.read_entry pathParts
  simp only [hsplit, List.dropLast_concat, List.getLastD_concat]
  cases hfd : findDir (match splitPath p with
      | [] :: rest => rest
      | _ => splitPath p) chest.root with
  | error e => simp [hfd]
  | ok cur =>
    have hcur := findDir_noEmpty hne hfd
    simp [hfd, btGet_nil_of_noEmpty hcur]

theorem writeDescend_nil_invalid {V : Type} (name : Str) (data : V)
    (dir : ChestDirectory V)
    (hbad : name = [] ∨ name.any invalidNameChar = true) :
    invalidNameError (writeDescend [] name data dir).1 := by
  have hv := validate_name_fails hbad
  unfold writeDescend
  rcases hv with hh | hh
  · rw [hh]
    exact Or.inl rfl
  · rw [hh]
    exact Or.inr rfl

theorem write_invalid_component {V : Type} (chest : Chest V) (name : Str)
    (data : V) (hslash : '/' ∉ name)
    (hbad : name = [] ∨ name.any invalidNameChar = true)
    (hroot : ∀ f, btGet chest.root (str "a") ≠ some (ChestDirectoryEntry.file f)) :
    invalidNameError (chest.write (str "a/" ++ name) data).1 := by
  have hname : splitOnPred (fun c => c == '/') name = [name] := by
    apply splitOnPred_no_sep
    intro c hc
    have hcne : c ≠ '/' := fun hh => hslash (hh ▸ hc)
    simp [hcne]
  have hpp : pathParts (str "a/" ++ name) = ([str "a"], name) := by
    unfold pathParts
    have hsp : splitPath (str "a/" ++ name) = [str "a", name] := by
      show splitOnPred (fun c => c == '/') ('a' :: '/' :: name) = [str "a", name]
      have h0 : splitOnPred (fun c => c == '/') ('a' :: '/' :: name)
          = ('a' :: []) :: splitOnPred (fun c => c == '/') name := rfl
      rw [h0, hname]
      rfl
    rw [hsp]
    rfl
  unfold Chest.write
  rw [hpp]
  have hva : Chest.validate_name (str "a") = .ok () := by decide
  show invalidNameError (writeDescend [str "a"] name data chest.root).1
  unfold writeDescend
  rw [hva]
  rcases hbt : btGet chest.root (str "a") with _ | entry
  · simp only []
    exact writeDescend_nil_invalid name data [] hbad
  · cases entry with
    | file f => exact absurd hbt (hroot f)
    | directory d =>
      simp only []
      exact writeDescend_nil_invalid name data d hbad

/-
Content model and search engine (src/lib/src/content.rs).

IndexedChestItemId(usize) is a plain Nat; Range<usize> is a (start, end)
pair.  The btree_range_map RangeMap<usize, usize> search space is
modelled by its lookup function Nat → Option Nat: insert overwrites the
values on a contiguous range, and iterating the map's disjoint ascending
ranges visits exactly the ids that have a value, in ascending order, so
the per-range loops of the source become a single ascending scan.
-/

/-- Minimum score to return a match. -/
def MIN_SEARCH_SCORE : Nat := 9

/-- Type of programming language object. -/
inductive ObjectType where
  | class_
  | struct_
  | union_
  | object_
  | enum_
  | value
  | variant
  | trait_
  | traitImplementation
  | interface
  | function_
  | method
  | variable_
  | member
  | field
  | constant
  | property
  | typedef
  | namespace_
deriving DecidableEq

/-- Type of element in a chest path. -/
inductive ChestPathElementType where
  | module
  | group
  | page
  | object
deriving DecidableEq

/-- A single element in a chest path. -/
structure ChestPathElement where
  element_type : ChestPathElementType
  name : Str
deriving DecidableEq

/-- Path to an item in a chest. -/
structure ChestPath where
  elements : List ChestPathElement
deriving DecidableEq

/-- Path to the root of the chest. -/
def ChestPath.root : ChestPath := ⟨[]⟩

/-- Rule for replacing file paths when reading from the chest. -/
structure FileReplacementRule where
  pattern : Str
  replacement : Str
deriving DecidableEq

/-- List of adjustments to apply for a given theme. -/
structure ThemeAdjustment where
  file_replacements : List FileReplacementRule
deriving DecidableEq

/-- Information about a chest. -/
structure ChestInfo where
  name : Str
  identifier : Str
  category_tag : Str
  extension_module : Option Str
  version : Str
  start_url : Str
  light_mode : Option ThemeAdjustment
  dark_mode : Option ThemeAdjustment
deriving DecidableEq

/-- A table of contents item for a page (the PageCategory and PageLink
structs of the source are inlined into the constructors). -/
inductive PageItem where
  | category (title : Str) (url : Option Str) (contents : List PageItem)
  | link (title : Str) (url : Str)

/-- A text page contained within a chest. -/
structure Page where
  title : Str
  url : Str
  contents : List PageItem

/-- Information about a module in a chest. -/
structure ModuleInfo where
  name : Str
  full_name : Str
  url : Option Str
deriving DecidableEq

/-- Information about a group in a chest. -/
structure GroupInfo where
  name : Str
  url : Option Str
deriving DecidableEq

/-- Information about an object in a chest. -/
structure ObjectInfo where
  name : Str
  full_name : Str
  declaration : Option Str
  url : Option Str
  object_type : ObjectType
  bases : List ChestPath
deriving DecidableEq

/-- A single item contained in a chest (the Module, Group and Object
structs of the source are inlined as an info field plus contents). -/
inductive ChestItem where
  | module (info : ModuleInfo) (contents : List ChestItem)
  | group (info : GroupInfo) (contents : List ChestItem)
  | page (page : Page)
  | object (info : ObjectInfo) (contents : List ChestItem)

/-- List of items contained in a chest along with the chest information. -/
structure ChestContents where
  info : ChestInfo
  items : List ChestItem

/-- A single item in indexed form; contained items are id lists. -/
inductive IndexedChestItemData where
  | module (info : ModuleInfo) (contents : List Nat)
  | group (info : GroupInfo) (contents : List Nat)
  | page (page : Page)
  | object (info : ObjectInfo) (contents : List Nat)

/-- An item contained in a chest in indexed form. -/
structure IndexedChestItem where
  parent_path : List Nat
  children : Nat × Nat
  data : IndexedChestItemData

/-- Chest contents optimized for searching. -/
structure IndexedChestContents where
  info : ChestInfo
  items : List IndexedChestItem
  root_item_ids : List Nat

/-- Parameters for searching a chest. -/
structure SearchParameters where
  result_count : Nat
deriving DecidableEq

/-- A single search result within a chest. -/
structure ChestSearchResult where
  path : ChestPath
  score : Nat
deriving DecidableEq

/-- A single search result within a chest in indexed form. -/
structure IndexedChestSearchResult where
  item : Nat
  score : Nat
deriving DecidableEq

/-- Name of a chest item. -/
def ChestItem.name : ChestItem → Str
  | .module info _ => info.name
  | .group info _ => info.name
  | .page p => p.title
  | .object info _ => info.name

/-- List of items contained in a chest item. -/
def ChestItem.contents : ChestItem → List ChestItem
  | .module _ contents => contents
  | .group _ contents => contents
  | .page _ => []
  | .object _ contents => contents

/-- Type of the chest item. -/
def ChestItem.element_type : ChestItem → ChestPathElementType
  | .module _ _ => .module
  | .group _ _ => .group
  | .page _ => .page
  | .object _ _ => .object

/-- The path element that references this chest item. -/
def ChestItem.as_path_element (item : ChestItem) : ChestPathElement :=
  ⟨item.element_type, item.name⟩

/-- Name of an indexed chest item. -/
def IndexedChestItem.name (item : IndexedChestItem) : Str :=
  match item.data with
  | .module info _ => info.name
  | .group info _ => info.name
  | .page p => p.title
  | .object info _ => info.name

/-- List of item identifiers contained in an indexed chest item. -/
def IndexedChestItem.content_ids (item : IndexedChestItem) : List Nat :=
  match item.data with
  | .module _ contents => contents
  | .group _ contents => contents
  | .page _ => []
  | .object _ contents => contents

/-- Type of an indexed chest item. -/
def IndexedChestItem.element_type (item : IndexedChestItem) : ChestPathElementType :=
  match item.data with
  | .module _ _ => .module
  | .group _ _ => .group
  | .page _ => .page
  | .object _ _ => .object

/-- The path element that references this indexed chest item. -/
def IndexedChestItem.as_path_element (item : IndexedChestItem) : ChestPathElement :=
  ⟨item.element_type, item.name⟩

/-- Overwrite the contents ids of an indexed item's data (the in-place
mutation at the end of indexed_contents). -/
def setDataContents : IndexedChestItemData → List Nat → IndexedChestItemData
  | .module info _, ids => .module info ids
  | .group info _, ids => .group info ids
  | .page page, _ => .page page
  | .object info _, ids => .object info ids

/-- The record-patching step at the end of each indexed_contents loop
iteration: set the children range and the child id list of the item that
was pushed at index id (items.get_mut in the source). -/
def indexedPatch (id first_child : Nat)
    (rec1 : List IndexedChestItem × List Nat) : List IndexedChestItem :=
  let end_of_children := rec1.1.length
  match rec1.1.get? id with
  | some olditem =>
    rec1.1.set id ⟨olditem.parent_path, (first_child, end_of_children),
      setDataContents olditem.data rec1.2⟩
  | none => rec1.1

mutual

/-- One iteration of the indexed_contents loop: append the item's record
with an empty children range, index the item's child items with the item
pushed onto the ancestor path, then patch the appended record.  For a
page the child list is empty and the recursive call is inlined as its
result (items unchanged, no child ids). -/
def ChestContents.indexed_one :
    ChestItem → List IndexedChestItem → List Nat → List IndexedChestItem
  | .module info contents, items, path =>
    let id := items.length
    let items1 := items ++ [⟨path, (id, id), IndexedChestItemData.module info []⟩]
    indexedPatch id items1.length
      (ChestContents.indexed_contents contents items1 (path ++ [id]))
  | .group info contents, items, path =>
    let id := items.length
    let items1 := items ++ [⟨path, (id, id), IndexedChestItemData.group info []⟩]
    indexedPatch id items1.length
      (ChestContents.indexed_contents contents items1 (path ++ [id]))
  | .page p, items, path =>
    let id := items.length
    let items1 := items ++ [⟨path, (id, id), IndexedChestItemData.page p⟩]
    indexedPatch id items1.length (items1, [])
  | .object info contents, items, path =>
    let id := items.length
    let items1 := items ++ [⟨path, (id, id), IndexedChestItemData.object info []⟩]
    indexedPatch id items1.length
      (ChestContents.indexed_contents contents items1 (path ++ [id]))

/-- Converts a list of chest items into indexed form.  The &mut items
vector and the &mut path ancestor stack are threaded explicitly; the
function returns the grown items vector and the ids of the given items. -/
def ChestContents.indexed_contents :
    List ChestItem → List IndexedChestItem → List Nat →
    List IndexedChestItem × List Nat
  | [], items, _ => (items, [])
  | item :: rest, items, path =>
    let id := items.length
    let items2 := ChestContents.indexed_one item items path
    let rec2 := ChestContents.indexed_contents rest items2 path
    (rec2.1, id :: rec2.2)

end

/-- Converts chest contents into indexed form. -/
def ChestContents.to_indexed (c : ChestContents) : IndexedChestContents :=
  let r := ChestContents.indexed_contents c.items [] []
  ⟨c.info, r.1, r.2⟩

/-- Gets a chest item by identifier. -/
def IndexedChestContents.get_by_id (cc : IndexedChestContents) (id : Nat) :
    Option IndexedChestItem := cc.items.get? id

/-- Gets chest item identifiers by path. -/
def IndexedChestContents.get_ids (cc : IndexedChestContents)
    (path : ChestPath) : List Nat :=
  let st := path.elements.foldl
    (fun (st : List Nat × List Nat) element =>
      let matching := st.1.filter (fun item_id =>
        match cc.get_by_id item_id with
        | some item => decide (item.as_path_element = element)
        | none => false)
      let contents := matching.flatMap (fun item_id =>
        match cc.get_by_id item_id with
        | some item => item.content_ids
        | none => [])
      (contents, matching))
    (cc.root_item_ids, [])
  st.2

/-- Gets the path for an item by identifier. -/
def IndexedChestContents.path_for_id (cc : IndexedChestContents) (id : Nat) :
    Option ChestPath :=
  match cc.get_by_id id with
  | none => none
  | some item =>
    some ⟨(item.parent_path.filterMap (fun eid =>
        (cc.get_by_id eid).map (fun e => e.as_path_element)))
      ++ [item.as_path_element]⟩

/-- Rust Ord on Option: None sorts before Some. -/
def optCmp (cmp : α → α → Ordering) : Option α → Option α → Ordering
  | none, none => .eq
  | none, some _ => .lt
  | some _, none => .gt
  | some a, some b => cmp a b

/-- Index of a path element type in its (derived) declaration order. -/
def pathElementTypeIdx : ChestPathElementType → Nat
  | .module => 0
  | .group => 1
  | .page => 2
  | .object => 3

/-- Derived Ord of ChestPathElementType: declaration order. -/
def pathElementTypeCmp (a b : ChestPathElementType) : Ordering :=
  natCmp (pathElementTypeIdx a) (pathElementTypeIdx b)

/-- ChestPathElement ordering: name ascending, then element type. -/
def chestPathElementCmp (a b : ChestPathElement) : Ordering :=
  (strCmp a.name b.name).then (pathElementTypeCmp a.element_type b.element_type)

/-- ChestPath ordering: shorter paths first, then element-wise. -/
def chestPathCmp (a b : ChestPath) : Ordering :=
  (natCmp a.elements.length b.elements.length).then
    (listCmp chestPathElementCmp a.elements b.elements)

/-- The element-by-element loop of compare_item_paths. -/
def cmpItemPathsLoop (cc : IndexedChestContents)
    (aItem bItem : Option IndexedChestItem) :
    List Nat → List Nat → Ordering
  | [], [] =>
    optCmp chestPathElementCmp (aItem.map (fun i => i.as_path_element))
      (bItem.map (fun i => i.as_path_element))
  | [], _ :: _ => .lt
  | _ :: _, [] => .gt
  | a0 :: as0, b0 :: bs0 =>
    let ae := (cc.get_by_id a0).map (fun i => i.as_path_element)
    let be := (cc.get_by_id b0).map (fun i => i.as_path_element)
    match optCmp chestPathElementCmp ae be with
    | .eq => cmpItemPathsLoop cc aItem bItem as0 bs0
    | o => o

/-- Compares two item paths; shorter paths come first. -/
def IndexedChestContents.compare_item_paths (cc : IndexedChestContents)
    (a b : Nat) : Ordering :=
  let a_item := cc.get_by_id a
  let b_item := cc.get_by_id b
  cmpItemPathsLoop cc a_item b_item
    ((a_item.map (fun i => i.parent_path)).getD [])
    ((b_item.map (fun i => i.parent_path)).getD [])

/-- Compares two search results for relevance. -/
def IndexedChestContents.compare_search_results (cc : IndexedChestContents)
    (a b : IndexedChestSearchResult) : Ordering :=
  (natCmp a.score b.score).swap.then (cc.compare_item_paths a.item b.item)

/-- RangeMap::insert: overwrite the value on a half-open range. -/
def rmInsert (lo hi v : Nat) (space : Nat → Option Nat) : Nat → Option Nat :=
  fun id => if lo ≤ id ∧ id < hi then some v else space id

/-- RangeMap::new: an empty search space. -/
def rmEmpty : Nat → Option Nat := fun _ => none

/-- Searches a given set of items for items matching a query, with their
accumulated scores: the callback invocations of search_items as a list,
in the ascending item-id order the RangeMap iteration produces.  The
fuzzy matcher of the external code_fuzzy_match crate is a parameter. -/
def IndexedChestContents.search_items (cc : IndexedChestContents)
    (fm : Str → Str → Option Nat) (space : Nat → Option Nat) (query : Str) :
    List (Nat × IndexedChestItem × Nat) :=
  (List.range cc.items.length).filterMap (fun item_id =>
    match space item_id, cc.get_by_id item_id with
    | some prior_score, some item =>
      match fm item.name query with
      | some score =>
        if MIN_SEARCH_SCORE ≤ score then
          some (item_id, item, prior_score + score)
        else none
      | none => none
    | _, _ => none)

/-- One narrowing step of search: propose every matching item's children
range at its accumulated score, skipping when the proposal's own id is
already covered at a score at least as good. -/
def narrowStep (cc : IndexedChestContents) (fm : Str → Str → Option Nat)
    (space : Nat → Option Nat) (part : Str) : Nat → Option Nat :=
  (cc.search_items fm space part).foldl
    (fun new_space r =>
      match new_space r.1 with
      | some existing_score =>
        if r.2.2 ≤ existing_score then new_space
        else rmInsert r.2.1.children.1 r.2.1.children.2 r.2.2 new_space
      | none => rmInsert r.2.1.children.1 r.2.1.children.2 r.2.2 new_space)
    rmEmpty

/-- Query segmentation: split on '.' and ':', dropping empty segments. -/
def splitQuery (query : Str) : List Str :=
  (splitOnPred (fun c => c == '.' || c == ':') query).filter
    (fun part => !part.isEmpty)

/-- Vec split_last: the last element and the elements before it. -/
def splitLast? : List α → Option (α × List α)
  | [] => none
  | [a] => some (a, [])
  | a :: rest =>
    match splitLast? rest with
    | some (last, init0) => some (last, a :: init0)
    | none => none

/-- The initial search space: the children ranges of the items at the
start path, or the whole item array when the start path is the root. -/
def IndexedChestContents.search_space0 (cc : IndexedChestContents)
    (start : ChestPath) : Nat → Option Nat :=
  if start.elements.length > 0 then
    (cc.get_ids start).foldl (fun sp item_id =>
      match cc.get_by_id item_id with
      | some item => rmInsert item.children.1 item.children.2 0 sp
      | none => sp) rmEmpty
  else rmInsert 0 cc.items.length 0 rmEmpty

/-- The raw (pre-sort, pre-truncation) results of search: narrow through
every leading segment, then collect the matches of the final segment. -/
def IndexedChestContents.search_raw (cc : IndexedChestContents)
    (fm : Str → Str → Option Nat) (start : ChestPath) (query : Str) :
    List IndexedChestSearchResult :=
  match splitLast? (splitQuery query) with
  | none => []
  | some (last_part, parts) =>
    let space := parts.foldl (fun sp part => narrowStep cc fm sp part)
      (cc.search_space0 start)
    (cc.search_items fm space last_part).map (fun r => ⟨r.1, r.2.2⟩)

/-- The id-level search pipeline: raw results sorted by relevance,
deduplicated, truncated.  sort_unstable_by is modelled by insertion sort:
when the comparator deems two distinct results equal their relative order
is unspecified in the source. -/
def IndexedChestContents.search_ids (cc : IndexedChestContents)
    (fm : Str → Str → Option Nat) (start : ChestPath) (query : Str)
    (parameters : SearchParameters) : List IndexedChestSearchResult :=
  let results := cc.search_raw fm start query
  let sorted := List.insertionSort (cmpLe cc.compare_search_results) results
  let deduped := dedupAdjacentBy
    (fun a b => decide (cc.compare_search_results a b = Ordering.eq)) sorted
  deduped.take parameters.result_count

/-- Searches a chest for items that match a string query (results in path
form). -/
def IndexedChestContents.search (cc : IndexedChestContents)
    (fm : Str → Str → Option Nat) (start : ChestPath) (query : Str)
    (parameters : SearchParameters) : List ChestSearchResult :=
  (cc.search_ids fm start query parameters).filterMap
    (fun r => (cc.path_for_id r.item).map (fun p => ⟨p, r.score⟩))

/-
Chest database (src/lib/src/db.rs).
-/

/-- Database of all available versions of a specific chest tag. -/
structure TagVersions where
  latest_version : Str
  versions : List (Str × Str)
deriving DecidableEq

/-- Path to an item within all chests. -/
structure ItemPath where
  identifier : Str
  chest_path : ChestPath
deriving DecidableEq

/-- A single cross-chest search result. -/
structure SearchResult where
  path : ItemPath
  score : Nat
deriving DecidableEq

/-- A loaded chest with its files and semantic contents. -/
structure LoadedChest (V : Type) where
  chest : Chest V
  contents : IndexedChestContents

/-- Database of all available chests. -/
structure Database (V : Type) where
  data_path : Str
  identifiers : List (Str × LoadedChest V)
  tags : List (Str × TagVersions)

/-- ItemPath ordering: chest path first, then identifier. -/
def itemPathCmp (a b : ItemPath) : Ordering :=
  (chestPathCmp a.chest_path b.chest_path).then (strCmp a.identifier b.identifier)

/-- SearchResult ordering: score descending, then path. -/
def searchResultCmp (a b : SearchResult) : Ordering :=
  (natCmp a.score b.score).swap.then (itemPathCmp a.path b.path)

/-- Convert a version string into a semantic version for comparison:
split on . - _ and keep the parts that parse as u32. -/
def Database.semantic_version (version : Str) : List Nat :=
  (splitOnPred (fun c => c == '.' || c == '-' || c == '_') version).filterMap
    parse_u32

/-- The by-semantic-version order used by the sort_by_key calls of load
and install (keys are compared with Vec::cmp on the parsed numbers). -/
def semverLe (a b : Str) : Prop :=
  cmpLe (listCmp natCmp) (Database.semantic_version a) (Database.semantic_version b)

instance : DecidableRel semverLe := by
  unfold semverLe cmpLe; infer_instance

/-- The tag-index update performed by Database::install once the chest
file has been copied and reopened (db.rs lines 151-177): fetch or default
the tag's entry, insert version -> identifier, then recompute
latest_version by sorting the VALUES of the versions map (the chest
identifiers, not the version keys) by semantic_version and taking the
last.  sort_by_key is stable, modelled by insertion sort.  The
file-system copy preceding this update is not modelled: it cannot fail
the part modelled here, and the claim concerns the tag index after a
successful install. -/
def Database.install_tag_update (tags : List (Str × TagVersions))
    (category_tag version identifier : Str) : List (Str × TagVersions) :=
  let tv := match btGet tags category_tag with
    | some tv => tv
    | none => ⟨[], []⟩
  let tv2 : TagVersions := ⟨tv.latest_version, btInsert version identifier tv.versions⟩
  let vals := tv2.versions.map (fun e => e.2)
  let sorted := List.insertionSort semverLe vals
  match sorted.getLast? with
  | some latest => btInsert category_tag ⟨latest, tv2.versions⟩ tags
  | none => btInsert category_tag tv2 tags

/-- Looks up the chest identifier for a tag name (name or name@version). -/
def Database.identifier_for_tag (db : Database V) (tag : Str) : Option Str :=
  let parts := splitOnPred (fun c => c == '@') tag
  match parts with
  | [p0] =>
    match btGet db.tags p0 with
    | some tag_versions => btGet tag_versions.versions tag_versions.latest_version
    | none => none
  | [p0, p1] =>
    match btGet db.tags p0 with
    | some tag_versions => btGet tag_versions.versions p1
    | none => none
  | _ => none

/-- The two if-let lookups at the top of the working-list loop of the
cross-chest branch of Database::search: the latest version's identifier
and loaded contents for one tag, when both lookups succeed. -/
def Database.latest_chest (db : Database V) (e : Str × TagVersions) :
    Option (Str × IndexedChestContents) :=
  match btGet e.2.versions e.2.latest_version with
  | some identifier =>
    match btGet db.identifiers identifier with
    | some chest => some (identifier, chest.contents)
    | none => none
  | none => none

/-- One step of the working-list loop of the cross-chest branch of
Database::search: push the tag's latest chest SEVEN times, as the source
does. -/
def Database.contents_step (db : Database V)
    (acc : List (Str × IndexedChestContents)) (e : Str × TagVersions) :
    List (Str × IndexedChestContents) :=
  match Database.latest_chest db e with
  | some ic => acc ++ [ic, ic, ic, ic, ic, ic, ic]
  | none => acc

/-- Modelled from the spec: the same working-list step pushing the chest
exactly once. -/
def Database.contents_once_step (db : Database V)
    (acc : List (Str × IndexedChestContents)) (e : Str × TagVersions) :
    List (Str × IndexedChestContents) :=
  match Database.latest_chest db e with
  | some ic => acc ++ [ic]
  | none => acc

/-- The working list built by the cross-chest branch of Database::search:
for every tag, the latest version's chest — pushed seven times each. -/
def Database.search_all_contents (db : Database V) :
    List (Str × IndexedChestContents) :=
  db.tags.foldl (Database.contents_step db) []

/-- Modelled from the spec: the working list with each chest exactly
once. -/
def Database.once_contents (db : Database V) :
    List (Str × IndexedChestContents) :=
  db.tags.foldl (Database.contents_once_step db) []

/-- The final sort / dedup / truncate shared by both search variants. -/
def Database.finalize_results (results : List SearchResult)
    (parameters : SearchParameters) : List SearchResult :=
  (dedupAdjacentBy (fun a b => decide (a = b))
    (List.insertionSort (cmpLe searchResultCmp) results)).take
    parameters.result_count

/-- Searches all chests for items matching a query (Database::search).
The fuzzy matcher of the external code_fuzzy_match crate is a
parameter. -/
def Database.search (db : Database V) (fm : Str → Str → Option Nat)
    (path : Option ItemPath) (query : Str) (parameters : SearchParameters) :
    List SearchResult :=
  let results := match path with
    | some path =>
      match btGet db.identifiers path.identifier with
      | some chest =>
        (chest.contents.search fm path.chest_path query parameters).map
          (fun r => ⟨⟨path.identifier, r.path⟩, r.score⟩)
      | none => []
    | none =>
      (Database.search_all_contents db).flatMap (fun ic =>
        (ic.2.search fm ChestPath.root query parameters).map
          (fun r => ⟨⟨ic.1, r.path⟩, r.score⟩))
  Database.finalize_results results parameters

/-- Modelled from the spec: the reference cross-chest search that inserts
the latest version of every tag into the working list exactly once, then
merges the per-chest results, re-sorts by descending score tie-broken by
ItemPath ordering, removes adjacent duplicates, and truncates. -/
def Database.search_once_ref (db : Database V) (fm : Str → Str → Option Nat)
    (query : Str) (parameters : SearchParameters) : List SearchResult :=
  let results := (Database.once_contents db).flatMap (fun ic =>
    (ic.2.search fm ChestPath.root query parameters).map
      (fun r => ⟨⟨ic.1, r.path⟩, r.score⟩))
  Database.finalize_results results parameters

theorem lawful_pathElementTypeCmp : LawfulCmp pathElementTypeCmp := by
  have h := lawful_of_injective lawful_natCmp pathElementTypeIdx (by
    intro a b hh
    cases a <;> cases b <;> simp_all [pathElementTypeIdx])
  exact h

theorem lawful_chestPathElementCmp : LawfulCmp chestPathElementCmp := by
  have h := lawful_lexProj lawful_strCmp lawful_pathElementTypeCmp
    (fun e : ChestPathElement => e.name) (fun e => e.element_type) (by
      intro a b h1 h2
      cases a
      cases b
      simp_all)
  exact h

theorem lawful_chestPathCmp : LawfulCmp chestPathCmp := by
  have h := lawful_lexProj lawful_natCmp (lawful_listCmp lawful_chestPathElementCmp)
    (fun p : ChestPath => p.elements.length) (fun p => p.elements) (by
      intro a b _ h2
      cases a
      cases b
      simp_all)
  exact h

theorem lawful_itemPathCmp : LawfulCmp itemPathCmp := by
  have h := lawful_lexProj lawful_chestPathCmp lawful_strCmp
    (fun p : ItemPath => p.chest_path) (fun p => p.identifier) (by
      intro a b h1 h2
      cases a
      cases b
      simp_all)
  exact h

theorem lawful_searchResultCmp : LawfulCmp searchResultCmp := by
  have h := lawful_lexProj (lawful_swapCmp lawful_natCmp) lawful_itemPathCmp
    (fun r : SearchResult => r.score) (fun r => r.path) (by
      intro a b h1 h2
      cases a
      cases b
      simp_all)
  exact h

theorem mem_contents_fold (db : Database V) :
    ∀ (tags : List (Str × TagVersions))
      (acc7 acc1 : List (Str × IndexedChestContents)),
      (∀ x, x ∈ acc7 ↔ x ∈ acc1) →
      ∀ x, x ∈ tags.foldl (Database.contents_step db) acc7 ↔
        x ∈ tags.foldl (Database.contents_once_step db) acc1 := by
  intro tags
  induction tags with
  | nil =>
    intro acc7 acc1 hacc x
    simpa using hacc x
  | cons e rest ih =>
    intro acc7 acc1 hacc x
    simp only [List.foldl_cons]
    refine ih _ _ ?_ x
    intro y
    unfold Database.contents_step Database.contents_once_step
    cases Database.latest_chest db e with
    | none => simpa using hacc y
    | some ic =>
      simp only [List.mem_append, List.mem_cons, List.not_mem_nil, or_false]
      have := hacc y
      tauto

theorem mem_all_contents_iff (db : Database V) (x : Str × IndexedChestContents) :
    x ∈ Database.search_all_contents db ↔ x ∈ Database.once_contents db := by
  unfold Database.search_all_contents Database.once_contents
  exact mem_contents_fold db db.tags [] [] (fun _ => Iff.rfl) x

theorem mem_of_mem_dedupTail {eqb : α → α → Bool} {x : α} :
    ∀ {l : List α} {kept : α}, x ∈ dedupTail eqb kept l → x ∈ l := by
  intro l
  induction l with
  | nil => intro kept hh; cases hh
  | cons b t ih =>
    intro kept hh
    simp only [dedupTail] at hh
    by_cases he : eqb kept b = true
    · rw [he] at hh
      simp only [if_true] at hh
      exact List.mem_cons_of_mem b (ih hh)
    · rw [if_neg he] at hh
      rcases List.mem_cons.mp hh with hh2 | hh2
      · exact hh2 ▸ List.mem_cons_self b t
      · exact List.mem_cons_of_mem b (ih hh2)

theorem mem_of_mem_dedupAdjacentBy {eqb : α → α → Bool} {x : α} {l : List α}
    (hh : x ∈ dedupAdjacentBy eqb l) : x ∈ l := by
  cases l with
  | nil => cases hh
  | cons a t =>
    simp only [dedupAdjacentBy] at hh
    rcases List.mem_cons.mp hh with hh2 | hh2
    · exact hh2 ▸ List.mem_cons_self a t
    · exact List.mem_cons_of_mem a (mem_of_mem_dedupTail hh2)

/-- Inversion of search_items membership: each emitted triple records an
item in the search space whose name fuzzy-matches the query with at least
the minimum score, at the accumulated score. -/
theorem mem_search_items_inv (cc : IndexedChestContents)
    (fm : Str → Str → Option Nat) (space : Nat → Option Nat) (query : Str)
    {t : Nat × IndexedChestItem × Nat}
    (ht : t ∈ cc.search_items fm space query) :
    ∃ prior s, space t.1 = some prior ∧ cc.get_by_id t.1 = some t.2.1 ∧
      fm t.2.1.name query = some s ∧ MIN_SEARCH_SCORE ≤ s ∧
      t.2.2 = prior + s := by
  unfold IndexedChestContents.search_items at ht
  rw [List.mem_filterMap] at ht
  obtain ⟨id, _, hsome⟩ := ht
  cases hsp : space id with
  | none =>
    simp only [hsp] at hsome
    exact Option.noConfusion hsome
  | some prior =>
    cases hgb : cc.get_by_id id with
    | none =>
      simp only [hsp, hgb] at hsome
      exact Option.noConfusion hsome
    | some item =>
      simp only [hsp, hgb] at hsome
      cases hfm : fm item.name query with
      | none =>
        simp only [hfm] at hsome
        exact Option.noConfusion hsome
      | some s =>
        simp only [hfm] at hsome
        by_cases hmin : MIN_SEARCH_SCORE ≤ s
        · rw [if_pos hmin] at hsome
          injection hsome with hsome
          subst hsome
          exact ⟨prior, s, hsp, hgb, hfm, hmin, rfl⟩
        · rw [if_neg hmin] at hsome
          exact Option.noConfusion hsome

/-- The search-ids pipeline only filters and reorders the raw results. -/
theorem mem_search_ids_sub (cc : IndexedChestContents)
    (fm : Str → Str → Option Nat) (start : ChestPath) (query : Str)
    (parameters : SearchParameters) {r : IndexedChestSearchResult}
    (hr : r ∈ cc.search_ids fm start query parameters) :
    r ∈ cc.search_raw fm start query := by
  unfold IndexedChestContents.search_ids at hr
  have h1 := List.mem_of_mem_take hr
  have h2 := mem_of_mem_dedupAdjacentBy h1
  exact (List.perm_insertionSort (cmpLe cc.compare_search_results)
    (cc.search_raw fm start query)).mem_iff.mp h2

/-- Every score in the raw results is at least the minimum score. -/
theorem search_raw_score_floor (cc : IndexedChestContents)
    (fm : Str → Str → Option Nat) (start : ChestPath) (query : Str)
    {r : IndexedChestSearchResult} (hr : r ∈ cc.search_raw fm start query) :
    MIN_SEARCH_SCORE ≤ r.score := by
  unfold IndexedChestContents.search_raw at hr
  cases hq : splitLast? (splitQuery query) with
  | none => rw [hq] at hr; cases hr
  | some lp =>
    rw [hq] at hr
    simp only [List.mem_map] at hr
    obtain ⟨t, ht, hrt⟩ := hr
    obtain ⟨prior, s, _, _, _, hmin, hscore⟩ := mem_search_items_inv cc fm _ _ ht
    subst hrt
    simp only []
    omega

/-- The fold that builds a narrowed search space only ever stores scores
of matched items over their children ranges. -/
theorem narrow_fold_invariant (L : List (Nat × IndexedChestItem × Nat)) :
    ∀ (l : List (Nat × IndexedChestItem × Nat)) (sp : Nat → Option Nat),
      (∀ x ∈ l, x ∈ L) →
      (∀ id v, sp id = some v → ∃ t, t ∈ L ∧ t.2.1.children.1 ≤ id ∧
        id < t.2.1.children.2 ∧ v = t.2.2) →
      ∀ id v,
        (l.foldl (fun new_space r =>
          match new_space r.1 with
          | some existing_score =>
            if r.2.2 ≤ existing_score then new_space
            else rmInsert r.2.1.children.1 r.2.1.children.2 r.2.2 new_space
          | none => rmInsert r.2.1.children.1 r.2.1.children.2 r.2.2 new_space)
          sp) id = some v →
        ∃ t, t ∈ L ∧ t.2.1.children.1 ≤ id ∧ id < t.2.1.children.2 ∧
          v = t.2.2 := by
  intro l
  induction l with
  | nil =>
    intro sp _ hsp id v hv
    exact hsp id v hv
  | cons r l2 ih =>
    intro sp hl hsp id v hv
    simp only [List.foldl_cons] at hv
    refine ih _ (fun x hx => hl x (List.mem_cons_of_mem r hx)) ?_ id v hv
    intro id2 v2 hv2
    have hrL : r ∈ L := hl r (List.mem_cons_self r l2)
    cases hm : sp r.1 with
    | some existing_score =>
      simp only [hm] at hv2
      by_cases hle : r.2.2 ≤ existing_score
      · rw [if_pos hle] at hv2
        exact hsp id2 v2 hv2
      · rw [if_neg hle] at hv2
        simp only [rmInsert] at hv2
        by_cases hin : r.2.1.children.1 ≤ id2 ∧ id2 < r.2.1.children.2
        · rw [if_pos hin] at hv2
          injection hv2 with hv2
          exact ⟨r, hrL, hin.1, hin.2, hv2.symm⟩
        · rw [if_neg hin] at hv2
          exact hsp id2 v2 hv2
    | none =>
      simp only [hm] at hv2
      simp only [rmInsert] at hv2
      by_cases hin : r.2.1.children.1 ≤ id2 ∧ id2 < r.2.1.children.2
      · rw [if_pos hin] at hv2
        injection hv2 with hv2
        exact ⟨r, hrL, hin.1, hin.2, hv2.symm⟩
      · rw [if_neg hin] at hv2
        exact hsp id2 v2 hv2

/-- Inversion of the narrowing step: a score stored in the narrowed space
comes from some matched item whose children range covers the id. -/
theorem narrowStep_some (cc : IndexedChestContents)
    (fm : Str → Str → Option Nat) (space : Nat → Option Nat) (part : Str)
    {id v : Nat} (hv : narrowStep cc fm space part id = some v) :
    ∃ t, t ∈ cc.search_items fm space part ∧ t.2.1.children.1 ≤ id ∧
      id < t.2.1.children.2 ∧ v = t.2.2 := by
  unfold narrowStep at hv
  refine narrow_fold_invariant (cc.search_items fm space part)
    (cc.search_items fm space part) rmEmpty (fun x hx => hx) ?_ id v hv
  intro id2 v2 hv2
  cases hv2

theorem splitLast?_concat (a : α) : ∀ l : List α, splitLast? (l ++ [a]) = some (a, l) := by
  intro l
  induction l with
  | nil => rfl
  | cons b t ih =>
    cases t with
    | nil => rfl
    | cons c t2 =>
      show splitLast? (b :: ((c :: t2) ++ [a])) = some (a, b :: c :: t2)
      simp only [splitLast?]
      have ih2 : splitLast? (c :: t2.append [a]) = some (a, c :: t2) := ih
      rw [ih2]

theorem splitQuery_append_seg (q : Str) (sep : Char) (seg : Str)
    (hsep : (sep == '.' || sep == ':') = true) (hseg1 : seg ≠ [])
    (hseg2 : ∀ c ∈ seg, ((c == '.' || c == ':') : Bool) = false) :
    splitQuery (q ++ sep :: seg) = splitQuery q ++ [seg] := by
  unfold splitQuery
  rw [splitOnPred_append_sep _ _ _ _ hsep]
  rw [List.filter_append]
  congr 1
  rw [splitOnPred_no_sep _ _ hseg2]
  have hne : (!seg.isEmpty) = true := by
    cases seg with
    | nil => exact absurd rfl hseg1
    | cons c t => rfl
  simp [List.filter, hne]

theorem splitLast?_eq_of_ne_nil {l : List α} (h : l ≠ []) :
    splitLast? l = some (l.getLast h, l.dropLast) := by
  conv_lhs => rw [← List.dropLast_append_getLast h]
  exact splitLast?_concat _ l.dropLast

mutual

/-- Number of indexed records a chest item produces: itself plus all of
its descendants. -/
def ChestItem.item_size : ChestItem → Nat
  | .module _ contents => 1 + ChestItem.forest_size contents
  | .group _ contents => 1 + ChestItem.forest_size contents
  | .page _ => 1
  | .object _ contents => 1 + ChestItem.forest_size contents

/-- Number of indexed records a list of chest items produces. -/
def ChestItem.forest_size : List ChestItem → Nat
  | [] => 0
  | item :: rest => ChestItem.item_size item + ChestItem.forest_size rest

end

mutual

/-- The DFS ancestor-id stack of every node of an item's subtree, in
preorder: the item sits at index base with ancestors anc (root first). -/
def ChestItem.item_anc (base : Nat) (anc : List Nat) : ChestItem → List (List Nat)
  | .module _ contents =>
    anc :: ChestItem.forest_anc (base + 1) (anc ++ [base]) contents
  | .group _ contents =>
    anc :: ChestItem.forest_anc (base + 1) (anc ++ [base]) contents
  | .page _ => [anc]
  | .object _ contents =>
    anc :: ChestItem.forest_anc (base + 1) (anc ++ [base]) contents

/-- The DFS ancestor-id stacks of every node of a forest in preorder,
the first root sitting at index base. -/
def ChestItem.forest_anc (base : Nat) (anc : List Nat) :
    List ChestItem → List (List Nat)
  | [] => []
  | item :: rest =>
    ChestItem.item_anc base anc item
      ++ ChestItem.forest_anc (base + ChestItem.item_size item) anc rest

end

mutual

/-- The half-open descendant id range of every node of an item's subtree
in preorder: each node's range starts right after the node itself. -/
def ChestItem.item_ranges (base : Nat) : ChestItem → List (Nat × Nat)
  | .module _ contents =>
    (base + 1, base + 1 + ChestItem.forest_size contents)
      :: ChestItem.forest_ranges (base + 1) contents
  | .group _ contents =>
    (base + 1, base + 1 + ChestItem.forest_size contents)
      :: ChestItem.forest_ranges (base + 1) contents
  | .page _ => [(base + 1, base + 1)]
  | .object _ contents =>
    (base + 1, base + 1 + ChestItem.forest_size contents)
      :: ChestItem.forest_ranges (base + 1) contents

/-- The descendant id ranges of every node of a forest in preorder. -/
def ChestItem.forest_ranges (base : Nat) : List ChestItem → List (Nat × Nat)
  | [] => []
  | item :: rest =>
    ChestItem.item_ranges base item
      ++ ChestItem.forest_ranges (base + ChestItem.item_size item) rest

end

/-- The ids the roots of a forest receive in the indexed form. -/
def ChestItem.root_ids (base : Nat) : List ChestItem → List Nat
  | [] => []
  | item :: rest => base :: ChestItem.root_ids (base + ChestItem.item_size item) rest

theorem chestItem_sizeOf_pos (item : ChestItem) : 0 < sizeOf item := by
  cases item <;> simp

theorem chestForest_sizeOf_pos (l : List ChestItem) : 0 < sizeOf l := by
  cases l <;> simp

theorem indexedPatch_eq (id fc : Nat) (A : List IndexedChestItem) (rids : List Nat)
    (ph : IndexedChestItem) (hget : A.get? id = some ph) :
    indexedPatch id fc (A, rids)
      = A.set id ⟨ph.parent_path, (fc, A.length), setDataContents ph.data rids⟩ := by
  unfold indexedPatch
  simp only [hget]

theorem set_append_cons (items : List IndexedChestItem) (ph x : IndexedChestItem)
    (new1 : List IndexedChestItem) :
    ((items ++ [ph]) ++ new1).set items.length x = items ++ (x :: new1) := by
  rw [List.append_assoc, List.set_append, if_neg (by omega), Nat.sub_self]
  rfl

theorem indexedPatch_append (items : List IndexedChestItem)
    (ph : IndexedChestItem) (new1 : List IndexedChestItem) (rids : List Nat) :
    indexedPatch items.length (items.length + 1) ((items ++ [ph]) ++ new1, rids)
      = items ++ (⟨ph.parent_path,
          (items.length + 1, items.length + 1 + new1.length),
          setDataContents ph.data rids⟩ :: new1) := by
  have hget : ((items ++ [ph]) ++ new1).get? items.length = some ph := by
    rw [List.get?_eq_getElem?, List.append_assoc,
      List.getElem?_append_right (le_refl items.length)]
    simp
  rw [indexedPatch_eq _ _ _ _ _ hget]
  have hlen : ((items ++ [ph]) ++ new1).length = items.length + 1 + new1.length := by
    simp
    omega
  rw [hlen, set_append_cons]

theorem indexed_contents_spec : ∀ n : Nat,
    (∀ item : ChestItem, sizeOf item ≤ n →
      ∀ (items : List IndexedChestItem) (path : List Nat),
      ∃ new, ChestContents.indexed_one item items path = items ++ new ∧
        new.length = ChestItem.item_size item ∧
        new.map (fun it => it.parent_path)
          = ChestItem.item_anc items.length path item ∧
        new.map (fun it => it.children) = ChestItem.item_ranges items.length item) ∧
    (∀ l : List ChestItem, sizeOf l ≤ n →
      ∀ (items : List IndexedChestItem) (path : List Nat),
      ∃ new, ChestContents.indexed_contents l items path
          = (items ++ new, ChestItem.root_ids items.length l) ∧
        new.length = ChestItem.forest_size l ∧
        new.map (fun it => it.parent_path)
          = ChestItem.forest_anc items.length path l ∧
        new.map (fun it => it.children) = ChestItem.forest_ranges items.length l) := by
  intro n
  induction n with
  | zero =>
    constructor
    · intro item hsz
      exact absurd hsz (by have := chestItem_sizeOf_pos item; omega)
    · intro l hsz
      exact absurd hsz (by have := chestForest_sizeOf_pos l; omega)
  | succ n ih =>
    constructor
    · intro item hsz items path
      cases item with
      | module info contents =>
        have hc : sizeOf contents ≤ n := by
          simp at hsz
          have := chestForest_sizeOf_pos contents
          omega
        obtain ⟨new1, heq, hlen, hpp, hch⟩ :=
          ih.2 contents hc (items ++ [⟨path, (items.length, items.length),
            IndexedChestItemData.module info []⟩]) (path ++ [items.length])
        have hl1 : (items ++ [(⟨path, (items.length, items.length),
            IndexedChestItemData.module info []⟩ : IndexedChestItem)]).length
            = items.length + 1 := by simp
        refine ⟨⟨path, (items.length + 1, items.length + 1 + new1.length),
          setDataContents (IndexedChestItemData.module info [])
            (ChestItem.root_ids (items.length + 1) contents)⟩ :: new1,
          ?_, ?_, ?_, ?_⟩
        · simp only [ChestContents.indexed_one]
          rw [heq, hl1]
          exact indexedPatch_append items _ new1 _
        · simp only [List.length_cons, ChestItem.item_size]
          omega
        · simp only [List.map_cons, ChestItem.item_anc]
          congr 1
          rw [hpp, hl1]
        · simp only [List.map_cons, ChestItem.item_ranges]
          rw [hlen]
          congr 1
          rw [hch, hl1]
      | group info contents =>
        have hc : sizeOf contents ≤ n := by
          simp at hsz
          have := chestForest_sizeOf_pos contents
          omega
        obtain ⟨new1, heq, hlen, hpp, hch⟩ :=
          ih.2 contents hc (items ++ [⟨path, (items.length, items.length),
            IndexedChestItemData.group info []⟩]) (path ++ [items.length])
        have hl1 : (items ++ [(⟨path, (items.length, items.length),
            IndexedChestItemData.group info []⟩ : IndexedChestItem)]).length
            = items.length + 1 := by simp
        refine ⟨⟨path, (items.length + 1, items.length + 1 + new1.length),
          setDataContents (IndexedChestItemData.group info [])
            (ChestItem.root_ids (items.length + 1) contents)⟩ :: new1,
          ?_, ?_, ?_, ?_⟩
        · simp only [ChestContents.indexed_one]
          rw [heq, hl1]
          exact indexedPatch_append items _ new1 _
        · simp only [List.length_cons, ChestItem.item_size]
          omega
        · simp only [List.map_cons, ChestItem.item_anc]
          congr 1
          rw [hpp, hl1]
        · simp only [List.map_cons, ChestItem.item_ranges]
          rw [hlen]
          congr 1
          rw [hch, hl1]
      | page p =>
        refine ⟨[⟨path, (items.length + 1, items.length + 1),
          IndexedChestItemData.page p⟩], ?_, rfl, rfl, rfl⟩
        simp only [ChestContents.indexed_one]
        have h0 := indexedPatch_append items ⟨path, (items.length, items.length),
          IndexedChestItemData.page p⟩ [] []
        simp only [List.append_nil, List.length_nil, Nat.add_zero] at h0
        have hl1 : (items ++ [(⟨path, (items.length, items.length),
            IndexedChestItemData.page p⟩ : IndexedChestItem)]).length
            = items.length + 1 := by simp
        rw [hl1]
        exact h0
      | object info contents =>
        have hc : sizeOf contents ≤ n := by
          simp at hsz
          have := chestForest_sizeOf_pos contents
          omega
        obtain ⟨new1, heq, hlen, hpp, hch⟩ :=
          ih.2 contents hc (items ++ [⟨path, (items.length, items.length),
            IndexedChestItemData.object info []⟩]) (path ++ [items.length])
        have hl1 : (items ++ [(⟨path, (items.length, items.length),
            IndexedChestItemData.object info []⟩ : IndexedChestItem)]).length
            = items.length + 1 := by simp
        refine ⟨⟨path, (items.length + 1, items.length + 1 + new1.length),
          setDataContents (IndexedChestItemData.object info [])
            (ChestItem.root_ids (items.length + 1) contents)⟩ :: new1,
          ?_, ?_, ?_, ?_⟩
        · simp only [ChestContents.indexed_one]
          rw [heq, hl1]
          exact indexedPatch_append items _ new1 _
        · simp only [List.length_cons, ChestItem.item_size]
          omega
        · simp only [List.map_cons, ChestItem.item_anc]
          congr 1
          rw [hpp, hl1]
        · simp only [List.map_cons, ChestItem.item_ranges]
          rw [hlen]
          congr 1
          rw [hch, hl1]
    · intro l hsz items path
      cases l with
      | nil =>
        refine ⟨[], ?_, rfl, rfl, rfl⟩
        simp [ChestContents.indexed_contents, ChestItem.root_ids]
      | cons item rest =>
        have hi : sizeOf item ≤ n := by
          simp at hsz
          have := chestForest_sizeOf_pos rest
          omega
        have hrst : sizeOf rest ≤ n := by
          simp at hsz
          have := chestItem_sizeOf_pos item
          omega
        obtain ⟨newI, heqI, hlenI, hppI, hchI⟩ := ih.1 item hi items path
        obtain ⟨newR, heqR, hlenR, hppR, hchR⟩ :=
          ih.2 rest hrst (items ++ newI) path
        have hIlen : (items ++ newI).length
            = items.length + ChestItem.item_size item := by
          simp [hlenI]
        refine ⟨newI ++ newR, ?_, ?_, ?_, ?_⟩
        · simp only [ChestContents.indexed_contents]
          rw [heqI, heqR]
          rw [List.append_assoc]
          have hroot : (ChestItem.root_ids items.length (item :: rest) : List Nat)
              = items.length :: ChestItem.root_ids
                  (items.length + ChestItem.item_size item) rest := rfl
          rw [hroot, hIlen]
        · simp only [List.length_append, ChestItem.forest_size, hlenI, hlenR]
        · rw [List.map_append, hppI, hppR, hIlen]
          rfl
        · rw [List.map_append, hchI, hchR, hIlen]
          rfl

/-- The combinatorial invariant of a DFS-indexed block of sz preorder
positions starting at position base under the ancestor stack anc: each
node's recorded ancestors extend anc with in-block ancestors, each node's
children range starts right after the node, and ancestry within the
block is exactly children-range membership. -/
def AncRangeInv (sz : Nat) (ancs : List (List Nat)) (rngs : List (Nat × Nat))
    (base : Nat) (anc : List Nat) : Prop :=
  ancs.length = sz ∧ rngs.length = sz ∧
  (∀ j, j < sz → ∃ w, ancs[j]? = some (anc ++ w) ∧
    ∀ x ∈ w, base ≤ x ∧ x < base + j) ∧
  (∀ i, i < sz → ∃ e, rngs[i]? = some (base + i + 1, e) ∧ e ≤ base + sz) ∧
  (∀ i j, i < sz → j < sz → ∀ w lo hi2, ancs[j]? = some w →
    rngs[i]? = some (lo, hi2) →
    ((base + i) ∈ w ↔ (lo ≤ base + j ∧ base + j < hi2)))

theorem ancRangeInv_nil (base : Nat) (anc : List Nat) :
    AncRangeInv 0 [] [] base anc := by
  refine ⟨rfl, rfl, ?_, ?_, ?_⟩
  · intro j hj
    exact absurd hj (by omega)
  · intro i hi
    exact absurd hi (by omega)
  · intro i j hi
    exact absurd hi (by omega)

theorem ancRangeInv_cons_node (base : Nat) (anc : List Nat) (fs : Nat)
    (fanc : List (List Nat)) (frng : List (Nat × Nat))
    (hanc : ∀ a ∈ anc, a < base)
    (h : AncRangeInv fs fanc frng (base + 1) (anc ++ [base])) :
    AncRangeInv (1 + fs) (anc :: fanc) ((base + 1, base + 1 + fs) :: frng)
      base anc := by
  obtain ⟨hl1, hl2, hdec, hrng, hiff⟩ := h
  refine ⟨by simp [hl1, Nat.add_comm], by simp [hl2, Nat.add_comm], ?_, ?_, ?_⟩
  · intro j hj
    cases j with
    | zero =>
      refine ⟨[], by simp, ?_⟩
      intro x hx
      cases hx
    | succ j' =>
      obtain ⟨w, hw, hwb⟩ := hdec j' (by omega)
      refine ⟨base :: w, ?_, ?_⟩
      · simp only [List.getElem?_cons_succ]
        rw [hw]
        congr 1
        simp
      · intro x hx
        rcases List.mem_cons.mp hx with hh | hh
        · subst hh
          omega
        · have := hwb x hh
          omega
  · intro i hi
    cases i with
    | zero =>
      refine ⟨base + 1 + fs, by simp, by omega⟩
    | succ i' =>
      obtain ⟨e, he, heb⟩ := hrng i' (by omega)
      refine ⟨e, ?_, by omega⟩
      simp only [List.getElem?_cons_succ]
      rw [he]
      congr 2
      omega
  · intro i j hi hj w lo hi2 hwj hri
    cases i with
    | zero =>
      simp only [List.getElem?_cons_zero] at hri
      injection hri with hri
      have hlo : lo = base + 1 := by
        have := congrArg Prod.fst hri
        simpa using this.symm
      have hhi : hi2 = base + 1 + fs := by
        have := congrArg Prod.snd hri
        simpa using this.symm
      subst hlo
      subst hhi
      cases j with
      | zero =>
        simp only [List.getElem?_cons_zero] at hwj
        injection hwj with hwj
        subst hwj
        constructor
        · intro hmem
          have := hanc (base + 0) (by simpa using hmem)
          omega
        · intro hmem
          omega
      | succ j' =>
        simp only [List.getElem?_cons_succ] at hwj
        obtain ⟨w', hw', hwb'⟩ := hdec j' (by omega)
        rw [hw'] at hwj
        injection hwj with hwj
        subst hwj
        constructor
        · intro _
          omega
        · intro _
          simp [List.mem_append]
    | succ i' =>
      simp only [List.getElem?_cons_succ] at hri
      cases j with
      | zero =>
        simp only [List.getElem?_cons_zero] at hwj
        injection hwj with hwj
        subst hwj
        obtain ⟨e, he, _⟩ := hrng i' (by omega)
        rw [he] at hri
        injection hri with hri
        have hlo : lo = base + 1 + i' + 1 := by
          have := congrArg Prod.fst hri
          simpa using this.symm
        subst hlo
        constructor
        · intro hmem
          have := hanc (base + (i' + 1)) hmem
          omega
        · intro hmem
          omega
      | succ j' =>
        simp only [List.getElem?_cons_succ] at hwj
        have hmain := hiff i' j' (by omega) (by omega) w lo hi2 hwj hri
        rw [show base + (i' + 1) = base + 1 + i' from by omega,
          show base + (j' + 1) = base + 1 + j' from by omega]
        exact hmain

theorem ancRangeInv_append (base : Nat) (anc : List Nat) (isz rsz : Nat)
    (ianc ranc : List (List Nat)) (irng rrng : List (Nat × Nat))
    (hanc : ∀ a ∈ anc, a < base)
    (hI : AncRangeInv isz ianc irng base anc)
    (hR : AncRangeInv rsz ranc rrng (base + isz) anc) :
    AncRangeInv (isz + rsz) (ianc ++ ranc) (irng ++ rrng) base anc := by
  obtain ⟨hIl1, hIl2, hIdec, hIrng, hIiff⟩ := hI
  obtain ⟨hRl1, hRl2, hRdec, hRrng, hRiff⟩ := hR
  refine ⟨by simp [hIl1, hRl1], by simp [hIl2, hRl2], ?_, ?_, ?_⟩
  · intro j hj
    by_cases hjz : j < isz
    · obtain ⟨w, hw, hwb⟩ := hIdec j hjz
      refine ⟨w, ?_, hwb⟩
      rw [List.getElem?_append_left (by rw [hIl1]; exact hjz)]
      exact hw
    · obtain ⟨w, hw, hwb⟩ := hRdec (j - isz) (by omega)
      refine ⟨w, ?_, ?_⟩
      · rw [List.getElem?_append_right (by rw [hIl1]; omega), hIl1]
        exact hw
      · intro x hx
        have := hwb x hx
        omega
  · intro i hi
    by_cases hiz : i < isz
    · obtain ⟨e, he, heb⟩ := hIrng i hiz
      refine ⟨e, ?_, by omega⟩
      rw [List.getElem?_append_left (by rw [hIl2]; exact hiz)]
      exact he
    · obtain ⟨e, he, heb⟩ := hRrng (i - isz) (by omega)
      refine ⟨e, ?_, by omega⟩
      rw [List.getElem?_append_right (by rw [hIl2]; omega), hIl2]
      rw [he]
      congr 2
      omega
  · intro i j hi hj w lo hi2 hwj hri
    by_cases hiz : i < isz <;> by_cases hjz : j < isz
    · rw [List.getElem?_append_left (by rw [hIl1]; exact hjz)] at hwj
      rw [List.getElem?_append_left (by rw [hIl2]; exact hiz)] at hri
      exact hIiff i j hiz hjz w lo hi2 hwj hri
    · rw [List.getElem?_append_left (by rw [hIl2]; exact hiz)] at hri
      rw [List.getElem?_append_right (by rw [hIl1]; omega), hIl1] at hwj
      obtain ⟨wr, hwr, hwrb⟩ := hRdec (j - isz) (by omega)
      rw [hwr] at hwj
      injection hwj with hwj
      subst hwj
      obtain ⟨e, he, heb⟩ := hIrng i hiz
      rw [he] at hri
      injection hri with hri
      have hlo : base + i + 1 = lo := by
        have := congrArg Prod.fst hri
        simpa using this
      have hhi : e = hi2 := by
        have := congrArg Prod.snd hri
        simpa using this
      constructor
      · intro hmem
        rcases List.mem_append.mp hmem with hh | hh
        · have := hanc _ hh
          omega
        · have := hwrb _ hh
          omega
      · intro hmem
        omega
    · rw [List.getElem?_append_left (by rw [hIl1]; exact hjz)] at hwj
      rw [List.getElem?_append_right (by rw [hIl2]; omega), hIl2] at hri
      obtain ⟨w', hw', hwb'⟩ := hIdec j hjz
      rw [hw'] at hwj
      injection hwj with hwj
      subst hwj
      obtain ⟨e, he, heb⟩ := hRrng (i - isz) (by omega)
      rw [he] at hri
      injection hri with hri
      have hlo : base + isz + (i - isz) + 1 = lo := by
        have := congrArg Prod.fst hri
        simpa using this
      constructor
      · intro hmem
        rcases List.mem_append.mp hmem with hh | hh
        · have := hanc _ hh
          omega
        · have := hwb' _ hh
          omega
      · intro hmem
        omega
    · rw [List.getElem?_append_right (by rw [hIl1]; omega), hIl1] at hwj
      rw [List.getElem?_append_right (by rw [hIl2]; omega), hIl2] at hri
      have hmain := hRiff (i - isz) (j - isz) (by omega) (by omega) w lo hi2 hwj hri
      rw [show base + i = base + isz + (i - isz) from by omega,
        show base + j = base + isz + (j - isz) from by omega]
      exact hmain

theorem ancRangeInv_main : ∀ n : Nat,
    (∀ item : ChestItem, sizeOf item ≤ n → ∀ base anc, (∀ a ∈ anc, a < base) →
      AncRangeInv (ChestItem.item_size item) (ChestItem.item_anc base anc item)
        (ChestItem.item_ranges base item) base anc) ∧
    (∀ l : List ChestItem, sizeOf l ≤ n → ∀ base anc, (∀ a ∈ anc, a < base) →
      AncRangeInv (ChestItem.forest_size l) (ChestItem.forest_anc base anc l)
        (ChestItem.forest_ranges base l) base anc) := by
  intro n
  induction n with
  | zero =>
    constructor
    · intro item hsz
      exact absurd hsz (by have := chestItem_sizeOf_pos item; omega)
    · intro l hsz
      exact absurd hsz (by have := chestForest_sizeOf_pos l; omega)
  | succ n ih =>
    constructor
    · intro item hsz base anc hanc
      have hanc2 : ∀ a ∈ anc ++ [base], a < base + 1 := by
        intro a ha
        rcases List.mem_append.mp ha with hh | hh
        · have := hanc a hh
          omega
        · simp at hh
          omega
      cases item with
      | module info contents =>
        have hc : sizeOf contents ≤ n := by
          simp at hsz
          have := chestForest_sizeOf_pos contents
          omega
        exact ancRangeInv_cons_node base anc _ _ _ hanc
          (ih.2 contents hc (base + 1) (anc ++ [base]) hanc2)
      | group info contents =>
        have hc : sizeOf contents ≤ n := by
          simp at hsz
          have := chestForest_sizeOf_pos contents
          omega
        exact ancRangeInv_cons_node base anc _ _ _ hanc
          (ih.2 contents hc (base + 1) (anc ++ [base]) hanc2)
      | page p =>
        exact ancRangeInv_cons_node base anc 0 [] [] hanc
          (ancRangeInv_nil (base + 1) (anc ++ [base]))
      | object info contents =>
        have hc : sizeOf contents ≤ n := by
          simp at hsz
          have := chestForest_sizeOf_pos contents
          omega
        exact ancRangeInv_cons_node base anc _ _ _ hanc
          (ih.2 contents hc (base + 1) (anc ++ [base]) hanc2)
    · intro l hsz base anc hanc
      cases l with
      | nil => exact ancRangeInv_nil base anc
      | cons item rest =>
        have hi : sizeOf item ≤ n := by
          simp at hsz
          have := chestForest_sizeOf_pos rest
          omega
        have hrst : sizeOf rest ≤ n := by
          simp at hsz
          have := chestItem_sizeOf_pos item
          omega
        exact ancRangeInv_append base anc _ _ _ _ _ _ hanc
          (ih.1 item hi base anc hanc)
          (ih.2 rest hrst (base + ChestItem.item_size item) anc
            (fun a ha => by have := hanc a ha; omega))

theorem ancRangeInv_forest (l : List ChestItem) :
    AncRangeInv (ChestItem.forest_size l) (ChestItem.forest_anc 0 [] l)
      (ChestItem.forest_ranges 0 l) 0 [] :=
  (ancRangeInv_main (sizeOf l)).2 l (le_refl _) 0 []
    (by intro a ha; cases ha)

theorem to_indexed_items (c : ChestContents) :
    (c.to_indexed).items.map (fun it => it.parent_path)
        = ChestItem.forest_anc 0 [] c.items ∧
    (c.to_indexed).items.map (fun it => it.children)
        = ChestItem.forest_ranges 0 c.items ∧
    (c.to_indexed).items.length = ChestItem.forest_size c.items ∧
    (c.to_indexed).root_item_ids = ChestItem.root_ids 0 c.items := by
  obtain ⟨new, heq, hlen, hpp, hch⟩ :=
    (indexed_contents_spec (sizeOf c.items)).2 c.items (le_refl _) [] []
  unfold ChestContents.to_indexed
  rw [heq]
  simp only [List.nil_append]
  exact ⟨hpp, hch, hlen, rfl⟩

/-- The recorded ancestor ids of the indexed item at position j (empty
when out of range). -/
def IndexedChestContents.parent_path_at (cc : IndexedChestContents)
    (j : Nat) : List Nat :=
  ((cc.items.get? j).map (fun it => it.parent_path)).getD []

/-- The recorded children range of the indexed item at position i ((0,0)
when out of range). -/
def IndexedChestContents.children_at (cc : IndexedChestContents)
    (i : Nat) : Nat × Nat :=
  ((cc.items.get? i).map (fun it => it.children)).getD (0, 0)

theorem to_indexed_anc_range (c : ChestContents) :
    ∀ i j, i < (c.to_indexed).items.length → j < (c.to_indexed).items.length →
      (i ∈ (c.to_indexed).parent_path_at j ↔
        ((c.to_indexed).children_at i).1 ≤ j ∧
          j < ((c.to_indexed).children_at i).2) := by
  obtain ⟨hpp, hch, hlen, _⟩ := to_indexed_items c
  obtain ⟨hl1, hl2, hdec, hrng, hiff⟩ := ancRangeInv_forest c.items
  intro i j hi hj
  have hjget : (c.to_indexed).items[j]? = some ((c.to_indexed).items[j]) :=
    List.getElem?_eq_getElem hj
  have higet : (c.to_indexed).items[i]? = some ((c.to_indexed).items[i]) :=
    List.getElem?_eq_getElem hi
  have hwj : (ChestItem.forest_anc 0 [] c.items)[j]?
      = some (((c.to_indexed).items[j]).parent_path) := by
    rw [← hpp, List.getElem?_map, hjget]
    rfl
  have hri : (ChestItem.forest_ranges 0 c.items)[i]?
      = some (((c.to_indexed).items[i]).children) := by
    rw [← hch, List.getElem?_map, higet]
    rfl
  have hiz : i < ChestItem.forest_size c.items := by omega
  have hjz : j < ChestItem.forest_size c.items := by omega
  have hmain := hiff i j hiz hjz (((c.to_indexed).items[j]).parent_path)
    (((c.to_indexed).items[i]).children).1 (((c.to_indexed).items[i]).children).2
    hwj (by rw [hri])
  have hpj : (c.to_indexed).parent_path_at j
      = ((c.to_indexed).items[j]).parent_path := by
    unfold IndexedChestContents.parent_path_at
    rw [List.get?_eq_getElem?, hjget]
    rfl
  have hci : (c.to_indexed).children_at i = ((c.to_indexed).items[i]).children := by
    unfold IndexedChestContents.children_at
    rw [List.get?_eq_getElem?, higet]
    rfl
  rw [hpj, hci]
  have h0i : 0 + i = i := by omega
  have h0j : 0 + j = j := by omega
  rw [h0i, h0j] at hmain
  exact hmain

/-- C3: Database::search with path = None computes exactly the reference
cross-chest search that visits the latest version of every tag once:
inserting each chest into the working list seven times changes only
multiplicities, and the final sort / adjacent-dedup / truncate is
canonical in the element set under the lawful result ordering. -/
theorem database_search_7x_eq_once (db : Database V) (fm : Str → Str → Option Nat)
    (query : Str) (parameters : SearchParameters) :
    Database.search db fm none query parameters
      = Database.search_once_ref db fm query parameters := by
  show Database.finalize_results
      ((Database.search_all_contents db).flatMap (fun ic =>
        (ic.2.search fm ChestPath.root query parameters).map
          (fun r => (⟨⟨ic.1, r.path⟩, r.score⟩ : SearchResult)))) parameters
    = Database.finalize_results
      ((Database.once_contents db).flatMap (fun ic =>
        (ic.2.search fm ChestPath.root query parameters).map
          (fun r => (⟨⟨ic.1, r.path⟩, r.score⟩ : SearchResult)))) parameters
  unfold Database.finalize_results
  have heqb : ∀ x y : SearchResult, (fun a b => decide (a = b)) x y = true ↔ x = y := by
    intro x y
    simp
  have hmem : ∀ x,
      x ∈ (Database.search_all_contents db).flatMap (fun ic =>
        (ic.2.search fm ChestPath.root query parameters).map
          (fun r => (⟨⟨ic.1, r.path⟩, r.score⟩ : SearchResult)))
      ↔ x ∈ (Database.once_contents db).flatMap (fun ic =>
        (ic.2.search fm ChestPath.root query parameters).map
          (fun r => (⟨⟨ic.1, r.path⟩, r.score⟩ : SearchResult))) := by
    intro x
    rw [List.mem_flatMap, List.mem_flatMap]
    constructor
    · rintro ⟨a, ha, hx⟩
      exact ⟨a, (mem_all_contents_iff db a).mp ha, hx⟩
    · rintro ⟨a, ha, hx⟩
      exact ⟨a, (mem_all_contents_iff db a).mpr ha, hx⟩
  rw [sortDedup_canonical lawful_searchResultCmp heqb _ _ hmem]

/-- C4 (amended): search monotonicity as claimed is false; what holds is
that every result of a query extended by one dot- or colon-separated
segment identifies an item inside the children range of some raw result
of the original query, with a score at least the original result's score
plus MIN_SEARCH_SCORE (scores accumulate along segments and the result
set descends into children instead of shrinking within itself). -/
theorem search_segment_extension_descends (cc : IndexedChestContents) (fm : Str → Str → Option Nat)
    (start : ChestPath) (q : Str) (sep : Char) (seg : Str)
    (parameters : SearchParameters)
    (hsep : (sep == '.' || sep == ':') = true) (hseg1 : seg ≠ [])
    (hseg2 : ∀ c ∈ seg, ((c == '.' || c == ':') : Bool) = false)
    (hq : splitQuery q ≠ []) (r : IndexedChestSearchResult)
    (hr : r ∈ cc.search_ids fm start (q ++ sep :: seg) parameters) :
    ∃ t ∈ cc.search_raw fm start q, ∃ item,
      cc.get_by_id t.item = some item ∧ item.children.1 ≤ r.item ∧
      r.item < item.children.2 ∧ t.score + MIN_SEARCH_SCORE ≤ r.score := by
  have hraw := mem_search_ids_sub cc fm start _ parameters hr
  have hsplitQ : splitQuery (q ++ sep :: seg) = splitQuery q ++ [seg] :=
    splitQuery_append_seg q sep seg hsep hseg1 hseg2
  have hslq : splitLast? (splitQuery q)
      = some ((splitQuery q).getLast hq, (splitQuery q).dropLast) :=
    splitLast?_eq_of_ne_nil hq
  have hdec : splitQuery q = (splitQuery q).dropLast ++ [(splitQuery q).getLast hq] :=
    (List.dropLast_append_getLast hq).symm
  -- the narrowed space of the extended query is one more narrowing step
  -- applied to the space the original query scores in
  unfold IndexedChestContents.search_raw at hraw
  rw [hsplitQ, splitLast?_concat] at hraw
  simp only [List.mem_map] at hraw
  obtain ⟨t', ht', hrt'⟩ := hraw
  have hspace : (splitQuery q).foldl (fun sp part => narrowStep cc fm sp part)
      (cc.search_space0 start)
      = narrowStep cc fm ((splitQuery q).dropLast.foldl
          (fun sp part => narrowStep cc fm sp part) (cc.search_space0 start))
        ((splitQuery q).getLast hq) := by
    conv_lhs => rw [hdec]
    rw [List.foldl_append]
    rfl
  rw [hspace] at ht'
  obtain ⟨prior, s, hsp, hgb, hfm, hmin, hscore⟩ :=
    mem_search_items_inv cc fm _ _ ht'
  obtain ⟨tt, htt, hlo, hhi, hveq⟩ := narrowStep_some cc fm _ _ hsp
  obtain ⟨priorT, sT, hspT, hgbT, hfmT, hminT, hscoreT⟩ :=
    mem_search_items_inv cc fm _ _ htt
  refine ⟨⟨tt.1, tt.2.2⟩, ?_, tt.2.1, hgbT, ?_, ?_, ?_⟩
  · unfold IndexedChestContents.search_raw
    rw [hslq]
    simp only [List.mem_map]
    exact ⟨tt, htt, rfl⟩
  · subst hrt'
    exact hlo
  · subst hrt'
    exact hhi
  · subst hrt'
    simp only []
    omega

/-- Modelled from the spec: the JSON value tree produced by serde_json
for the manifest (no numeric fields occur in the manifest schema, so
only null, strings, arrays and objects are needed; the JSON text layer
is modelled at the value level). -/
inductive Json where
  | null
  | str (s : Str)
  | arr (elems : List Json)
  | obj (fields : List (Str × Json))

/-- Modelled from the spec: look up a field of a JSON object by name. -/
def jget : List (Str × Json) → Str → Option Json
  | [], _ => none
  | (k, v) :: rest, key => if k = key then some v else jget rest key

/-- Modelled from the spec: serde encoding of Option of String (None
serialises as null). -/
def encodeOptStr : Option Str → Json
  | none => Json.null
  | some s => Json.str s

/-- Modelled from the spec: serde decoding of Option of String. -/
def decodeOptStr : Json → Option (Option Str)
  | Json.null => some none
  | Json.str s => some (some s)
  | _ => none

/-- Modelled from the spec: serde decoding of a String. -/
def decodeStr : Json → Option Str
  | Json.str s => some s
  | _ => none

/-- Modelled from the spec: serde encoding of the ObjectType unit enum
as its variant name. -/
def encodeObjectType : ObjectType → Json
  | .class_ => Json.str (str "Class")
  | .struct_ => Json.str (str "Struct")
  | .union_ => Json.str (str "Union")
  | .object_ => Json.str (str "Object")
  | .enum_ => Json.str (str "Enum")
  | .value => Json.str (str "Value")
  | .variant => Json.str (str "Variant")
  | .trait_ => Json.str (str "Trait")
  | .traitImplementation => Json.str (str "TraitImplementation")
  | .interface => Json.str (str "Interface")
  | .function_ => Json.str (str "Function")
  | .method => Json.str (str "Method")
  | .variable_ => Json.str (str "Variable")
  | .member => Json.str (str "Member")
  | .field => Json.str (str "Field")
  | .constant => Json.str (str "Constant")
  | .property => Json.str (str "Property")
  | .typedef => Json.str (str "Typedef")
  | .namespace_ => Json.str (str "Namespace")

/-- Modelled from the spec: serde decoding of the ObjectType unit enum. -/
def decodeObjectType (j : Json) : Option ObjectType :=
  match j with
  | Json.str s =>
    if s = str "Class" then some .class_
    else if s = str "Struct" then some .struct_
    else if s = str "Union" then some .union_
    else if s = str "Object" then some .object_
    else if s = str "Enum" then some .enum_
    else if s = str "Value" then some .value
    else if s = str "Variant" then some .variant
    else if s = str "Trait" then some .trait_
    else if s = str "TraitImplementation" then some .traitImplementation
    else if s = str "Interface" then some .interface
    else if s = str "Function" then some .function_
    else if s = str "Method" then some .method
    else if s = str "Variable" then some .variable_
    else if s = str "Member" then some .member
    else if s = str "Field" then some .field
    else if s = str "Constant" then some .constant
    else if s = str "Property" then some .property
    else if s = str "Typedef" then some .typedef
    else if s = str "Namespace" then some .namespace_
    else none
  | _ => none

/-- Modelled from the spec: serde encoding of ChestPathElementType. -/
def encodePathElementType : ChestPathElementType → Json
  | .module => Json.str (str "Module")
  | .group => Json.str (str "Group")
  | .page => Json.str (str "Page")
  | .object => Json.str (str "Object")

/-- Modelled from the spec: serde decoding of ChestPathElementType. -/
def decodePathElementType (j : Json) : Option ChestPathElementType :=
  match j with
  | Json.str s =>
    if s = str "Module" then some .module
    else if s = str "Group" then some .group
    else if s = str "Page" then some .page
    else if s = str "Object" then some .object
    else none
  | _ => none

/-- Modelled from the spec: serde encoding of a ChestPathElement. -/
def encodePathElement (e : ChestPathElement) : Json :=
  Json.obj [(str "element_type", encodePathElementType e.element_type),
            (str "name", Json.str e.name)]

/-- Modelled from the spec: serde decoding of a ChestPathElement. -/
def decodePathElement (j : Json) : Option ChestPathElement :=
  match j with
  | Json.obj fields =>
    match jget fields (str "element_type"), jget fields (str "name") with
    | some tj, some (Json.str n) =>
      match decodePathElementType tj with
      | some t => some ⟨t, n⟩
      | none => none
    | _, _ => none
  | _ => none

/-- Decode every element of a JSON list, failing if any element fails
(the Option-monad traversal used by the modelled serde decoders). -/
def omapM (g : Json → Option α) : List Json → Option (List α)
  | [] => some []
  | x :: xs =>
    match g x with
    | some a =>
      match omapM g xs with
      | some as => some (a :: as)
      | none => none
    | none => none

/-- Modelled from the spec: serde encoding of a ChestPath. -/
def encodePath (p : ChestPath) : Json :=
  Json.obj [(str "elements", Json.arr (p.elements.map encodePathElement))]

/-- Modelled from the spec: serde decoding of a ChestPath. -/
def decodePath (j : Json) : Option ChestPath :=
  match j with
  | Json.obj fields =>
    match jget fields (str "elements") with
    | some (Json.arr js) =>
      match omapM decodePathElement js with
      | some es => some ⟨es⟩
      | none => none
    | _ => none
  | _ => none

/-- Modelled from the spec: serde encoding of a FileReplacementRule. -/
def encodeRule (r : FileReplacementRule) : Json :=
  Json.obj [(str "pattern", Json.str r.pattern),
            (str "replacement", Json.str r.replacement)]

/-- Modelled from the spec: serde decoding of a FileReplacementRule. -/
def decodeRule (j : Json) : Option FileReplacementRule :=
  match j with
  | Json.obj fields =>
    match jget fields (str "pattern"), jget fields (str "replacement") with
    | some (Json.str p), some (Json.str r) => some ⟨p, r⟩
    | _, _ => none
  | _ => none

/-- Modelled from the spec: serde encoding of a ThemeAdjustment. -/
def encodeTheme (t : ThemeAdjustment) : Json :=
  Json.obj [(str "file_replacements", Json.arr (t.file_replacements.map encodeRule))]

/-- Modelled from the spec: serde decoding of a ThemeAdjustment. -/
def decodeTheme (j : Json) : Option ThemeAdjustment :=
  match j with
  | Json.obj fields =>
    match jget fields (str "file_replacements") with
    | some (Json.arr js) =>
      match omapM decodeRule js with
      | some rs => some ⟨rs⟩
      | none => none
    | _ => none
  | _ => none

/-- Modelled from the spec: serde encoding of Option of ThemeAdjustment. -/
def encodeOptTheme : Option ThemeAdjustment → Json
  | none => Json.null
  | some t => encodeTheme t

/-- Modelled from the spec: serde decoding of Option of ThemeAdjustment. -/
def decodeOptTheme (j : Json) : Option (Option ThemeAdjustment) :=
  match j with
  | Json.null => some none
  | _ =>
    match decodeTheme j with
    | some t => some (some t)
    | none => none

mutual
/-- Modelled from the spec: serde encoding of a PageItem (externally
tagged enum; PageCategory and PageLink fields inline). -/
def encodePageItem : PageItem → Json
  | .category title url contents =>
    Json.obj [(str "Category",
      Json.obj [(str "title", Json.str title),
                (str "url", encodeOptStr url),
                (str "contents", Json.arr (encodePageItems contents))])]
  | .link title url =>
    Json.obj [(str "Link",
      Json.obj [(str "title", Json.str title),
                (str "url", Json.str url)])]

/-- Modelled from the spec: serde encoding of a list of PageItems. -/
def encodePageItems : List PageItem → List Json
  | [] => []
  | x :: xs => encodePageItem x :: encodePageItems xs
end

mutual
/-- Modelled from the spec: serde decoding of a single PageItem. -/
def decodePageItemOne : Json → Option PageItem
  | Json.obj [(tag, Json.obj fields)] =>
    if tag = str "Category" then
      match jget fields (str "title"), jget fields (str "url"),
          findPageContents fields with
      | some (Json.str t), some u, some cs =>
        match decodeOptStr u with
        | some uo => some (PageItem.category t uo cs)
        | none => none
      | _, _, _ => none
    else if tag = str "Link" then
      match jget fields (str "title"), jget fields (str "url") with
      | some (Json.str t), some (Json.str u) => some (PageItem.link t u)
      | _, _ => none
    else none
  | _ => none

/-- Modelled from the spec: serde decoding of a list of PageItems. -/
def decodePageItemList : List Json → Option (List PageItem)
  | [] => some []
  | x :: xs =>
    match decodePageItemOne x with
    | some a =>
      match decodePageItemList xs with
      | some as => some (a :: as)
      | none => none
    | none => none

/-- Modelled from the spec: locate the contents field of a serialised
page category and decode it as a list of PageItems. -/
def findPageContents : List (Str × Json) → Option (List PageItem)
  | [] => none
  | (k, v) :: rest =>
    if k = str "contents" then
      match v with
      | Json.arr js => decodePageItemList js
      | _ => none
    else findPageContents rest
end

/-- Modelled from the spec: serde encoding of a Page. -/
def encodePage (p : Page) : Json :=
  Json.obj [(str "title", Json.str p.title),
            (str "url", Json.str p.url),
            (str "contents", Json.arr (encodePageItems p.contents))]

/-- Modelled from the spec: serde decoding of a Page. -/
def decodePage (j : Json) : Option Page :=
  match j with
  | Json.obj fields =>
    match jget fields (str "title"), jget fields (str "url"),
        findPageContents fields with
    | some (Json.str t), some (Json.str u), some cs => some ⟨t, u, cs⟩
    | _, _, _ => none
  | _ => none

mutual
/-- Modelled from the spec: serde encoding of a ChestItem (externally
tagged enum; the flattened info fields are inline with contents). -/
def encodeItem : ChestItem → Json
  | .module info contents =>
    Json.obj [(str "Module",
      Json.obj [(str "name", Json.str info.name),
                (str "full_name", Json.str info.full_name),
                (str "url", encodeOptStr info.url),
                (str "contents", Json.arr (encodeItems contents))])]
  | .group info contents =>
    Json.obj [(str "Group",
      Json.obj [(str "name", Json.str info.name),
                (str "url", encodeOptStr info.url),
                (str "contents", Json.arr (encodeItems contents))])]
  | .page p =>
    Json.obj [(str "Page", encodePage p)]
  | .object info contents =>
    Json.obj [(str "Object",
      Json.obj [(str "name", Json.str info.name),
                (str "full_name", Json.str info.full_name),
                (str "declaration", encodeOptStr info.declaration),
                (str "url", encodeOptStr info.url),
                (str "object_type", encodeObjectType info.object_type),
                (str "bases", Json.arr (info.bases.map encodePath)),
                (str "contents", Json.arr (encodeItems contents))])]

/-- Modelled from the spec: serde encoding of a list of ChestItems. -/
def encodeItems : List ChestItem → List Json
  | [] => []
  | x :: xs => encodeItem x :: encodeItems xs
end

mutual
/-- Modelled from the spec: serde decoding of a single ChestItem. -/
def decodeItemOne : Json → Option ChestItem
  | Json.obj [(tag, Json.obj fields)] =>
    if tag = str "Module" then
      match jget fields (str "name"), jget fields (str "full_name"),
          jget fields (str "url"), findItemContents fields with
      | some (Json.str nm), some (Json.str fn), some u, some cs =>
        match decodeOptStr u with
        | some uo => some (ChestItem.module ⟨nm, fn, uo⟩ cs)
        | none => none
      | _, _, _, _ => none
    else if tag = str "Group" then
      match jget fields (str "name"), jget fields (str "url"),
          findItemContents fields with
      | some (Json.str nm), some u, some cs =>
        match decodeOptStr u with
        | some uo => some (ChestItem.group ⟨nm, uo⟩ cs)
        | none => none
      | _, _, _ => none
    else if tag = str "Page" then
      match decodePage (Json.obj fields) with
      | some p => some (ChestItem.page p)
      | none => none
    else if tag = str "Object" then
      match jget fields (str "name"), jget fields (str "full_name"),
          jget fields (str "declaration"), jget fields (str "url"),
          jget fields (str "object_type"), jget fields (str "bases"),
          findItemContents fields with
      | some (Json.str nm), some (Json.str fn), some d, some u,
          some tj, some (Json.arr bjs), some cs =>
        match decodeOptStr d, decodeOptStr u, decodeObjectType tj,
            omapM decodePath bjs with
        | some dd, some uu, some ot, some bs =>
          some (ChestItem.object ⟨nm, fn, dd, uu, ot, bs⟩ cs)
        | _, _, _, _ => none
      | _, _, _, _, _, _, _ => none
    else none
  | _ => none

/-- Modelled from the spec: serde decoding of a list of ChestItems. -/
def decodeItemList : List Json → Option (List ChestItem)
  | [] => some []
  | x :: xs =>
    match decodeItemOne x with
    | some a =>
      match decodeItemList xs with
      | some as => some (a :: as)
      | none => none
    | none => none

/-- Modelled from the spec: locate the contents field of a serialised
item and decode it as a list of ChestItems. -/
def findItemContents : List (Str × Json) → Option (List ChestItem)
  | [] => none
  | (k, v) :: rest =>
    if k = str "contents" then
      match v with
      | Json.arr js => decodeItemList js
      | _ => none
    else findItemContents rest
end

/-- Modelled from the spec: serde encoding of ChestContents (the
flattened ChestInfo fields are inline with the items list). -/
def encodeContents (c : ChestContents) : Json :=
  Json.obj [(str "name", Json.str c.info.name),
            (str "identifier", Json.str c.info.identifier),
            (str "category_tag", Json.str c.info.category_tag),
            (str "extension_module", encodeOptStr c.info.extension_module),
            (str "version", Json.str c.info.version),
            (str "start_url", Json.str c.info.start_url),
            (str "light_mode", encodeOptTheme c.info.light_mode),
            (str "dark_mode", encodeOptTheme c.info.dark_mode),
            (str "items", Json.arr (encodeItems c.items))]

/-- Modelled from the spec: serde decoding of ChestContents. -/
def decodeContents (j : Json) : Option ChestContents :=
  match j with
  | Json.obj fields =>
    match jget fields (str "name"), jget fields (str "identifier"),
        jget fields (str "category_tag"), jget fields (str "extension_module"),
        jget fields (str "version"), jget fields (str "start_url"),
        jget fields (str "light_mode"), jget fields (str "dark_mode"),
        jget fields (str "items") with
    | some (Json.str nm), some (Json.str idf), some (Json.str ct),
        some em, some (Json.str v), some (Json.str su), some lm, some dm,
        some (Json.arr js) =>
      match decodeOptStr em, decodeOptTheme lm, decodeOptTheme dm,
          decodeItemList js with
      | some emo, some lmo, some dmo, some its =>
        some ⟨⟨nm, idf, ct, emo, v, su, lmo, dmo⟩, its⟩
      | _, _, _, _ => none
    | _, _, _, _, _, _, _, _, _ => none
  | _ => none

/-- The reserved manifest file name. -/
def CONTENTS_FILE : Str := str "_chest_contents.json"

/-- Writes the chest contents to a chest (serde_json::to_string is
modelled at the JSON value level by encodeContents). -/
def ChestContents.write_to_chest (c : ChestContents) (chest : Chest Json) :
    Except Str Unit × Chest Json :=
  Chest.write chest CONTENTS_FILE (encodeContents c)

/-- Read the contents of a chest from a chest (serde_json::from_str is
modelled at the JSON value level by decodeContents). -/
def ChestContents.read_from_chest (chest : Chest Json) :
    Except Str ChestContents :=
  match Chest.read chest CONTENTS_FILE with
  | Except.ok j =>
    match decodeContents j with
    | some c => Except.ok c
    | none => Except.error (str "invalid manifest")
  | Except.error e => Except.error e

theorem pageItem_sizeOf_pos (pi : PageItem) : 0 < sizeOf pi := by
  cases pi <;> simp

theorem decodeOptStr_enc (o : Option Str) : decodeOptStr (encodeOptStr o) = some o := by
  cases o <;> rfl

theorem decodeObjectType_enc (t : ObjectType) :
    decodeObjectType (encodeObjectType t) = some t := by
  cases t <;> rfl

theorem decodePathElementType_enc (t : ChestPathElementType) :
    decodePathElementType (encodePathElementType t) = some t := by
  cases t <;> rfl

theorem decodePathElement_enc (e : ChestPathElement) :
    decodePathElement (encodePathElement e) = some e := by
  cases e with
  | mk t n => cases t <;> rfl

theorem omapM_map {α : Type} (g : Json → Option α) (f : α → Json) (l : List α)
    (h : ∀ x ∈ l, g (f x) = some x) : omapM g (l.map f) = some l := by
  induction l with
  | nil => rfl
  | cons x xs ih =>
    simp only [List.map_cons, omapM]
    rw [h x (List.mem_cons_self x xs), ih (fun y hy => h y (List.mem_cons_of_mem _ hy))]

theorem decodePath_enc (p : ChestPath) : decodePath (encodePath p) = some p := by
  cases p with
  | mk es =>
    simp only [encodePath, decodePath, jget, if_true]
    rw [omapM_map decodePathElement encodePathElement es
      (fun x _ => decodePathElement_enc x)]

theorem decodeRule_enc (r : FileReplacementRule) :
    decodeRule (encodeRule r) = some r := by
  cases r
  rfl

theorem decodeTheme_enc (t : ThemeAdjustment) :
    decodeTheme (encodeTheme t) = some t := by
  cases t with
  | mk rs =>
    simp only [encodeTheme, decodeTheme, jget, if_true]
    rw [omapM_map decodeRule encodeRule rs (fun x _ => decodeRule_enc x)]

theorem decodeOptTheme_enc (o : Option ThemeAdjustment) :
    decodeOptTheme (encodeOptTheme o) = some o := by
  cases o with
  | none => rfl
  | some t =>
    cases t with
    | mk rs =>
      have h := decodeTheme_enc ⟨rs⟩
      simp only [encodeTheme] at h
      simp only [encodeOptTheme, encodeTheme, decodeOptTheme]
      rw [h]

theorem decodePageItem_enc : ∀ n : Nat,
    (∀ pi : PageItem, sizeOf pi ≤ n →
      decodePageItemOne (encodePageItem pi) = some pi) ∧
    (∀ l : List PageItem, sizeOf l ≤ n →
      decodePageItemList (encodePageItems l) = some l) := by
  intro n
  induction n with
  | zero =>
    constructor
    · intro pi hsz
      exact absurd hsz (by have := pageItem_sizeOf_pos pi; omega)
    · intro l hsz
      exact absurd hsz (by cases l <;> simp_arith at hsz)
  | succ n ih =>
    constructor
    · intro pi hsz
      cases pi with
      | category t u cs =>
        have hcs : sizeOf cs ≤ n := by
          simp at hsz
          omega
        have hl := ih.2 cs hcs
        simp only [encodePageItem, decodePageItemOne]
        simp +decide [jget, findPageContents, hl, decodeOptStr_enc]
      | link t u => rfl
    · intro l hsz
      cases l with
      | nil => rfl
      | cons x xs =>
        have hx : sizeOf x ≤ n := by
          simp at hsz
          omega
        have hxs : sizeOf xs ≤ n := by
          simp at hsz
          have := pageItem_sizeOf_pos x
          omega
        simp only [encodePageItems, decodePageItemList]
        rw [ih.1 x hx, ih.2 xs hxs]

theorem decodePage_enc (p : Page) : decodePage (encodePage p) = some p := by
  cases p with
  | mk t u cs =>
    have hl := (decodePageItem_enc (sizeOf cs)).2 cs (le_refl _)
    simp only [encodePage, decodePage]
    simp +decide [jget, findPageContents, hl]

theorem decodeItem_enc : ∀ n : Nat,
    (∀ it : ChestItem, sizeOf it ≤ n →
      decodeItemOne (encodeItem it) = some it) ∧
    (∀ l : List ChestItem, sizeOf l ≤ n →
      decodeItemList (encodeItems l) = some l) := by
  intro n
  induction n with
  | zero =>
    constructor
    · intro it hsz
      exact absurd hsz (by have := chestItem_sizeOf_pos it; omega)
    · intro l hsz
      exact absurd hsz (by have := chestForest_sizeOf_pos l; omega)
  | succ n ih =>
    constructor
    · intro it hsz
      cases it with
      | module info contents =>
        have hc : sizeOf contents ≤ n := by
          simp at hsz
          omega
        have hl := ih.2 contents hc
        cases info with
        | mk nm fn u =>
          simp only [encodeItem, decodeItemOne]
          simp +decide [jget, findItemContents, hl, decodeOptStr_enc]
      | group info contents =>
        have hc : sizeOf contents ≤ n := by
          simp at hsz
          omega
        have hl := ih.2 contents hc
        cases info with
        | mk nm u =>
          simp only [encodeItem, decodeItemOne]
          simp +decide [jget, findItemContents, hl, decodeOptStr_enc]
      | page p =>
        have hp := decodePage_enc p
        simp only [encodePage] at hp
        simp only [encodeItem, encodePage, decodeItemOne]
        simp +decide [hp]
      | object info contents =>
        have hc : sizeOf contents ≤ n := by
          simp at hsz
          omega
        have hl := ih.2 contents hc
        have hb : omapM decodePath (info.bases.map encodePath) = some info.bases :=
          omapM_map decodePath encodePath info.bases (fun x _ => decodePath_enc x)
        cases info with
        | mk nm fn d u ot bs =>
          simp only [encodeItem, decodeItemOne]
          simp +decide [jget, findItemContents, hl, decodeOptStr_enc,
            decodeObjectType_enc, hb]
    · intro l hsz
      cases l with
      | nil => rfl
      | cons x xs =>
        have hx : sizeOf x ≤ n := by
          simp at hsz
          have := chestForest_sizeOf_pos xs
          omega
        have hxs : sizeOf xs ≤ n := by
          simp at hsz
          have := chestItem_sizeOf_pos x
          omega
        simp only [encodeItems, decodeItemList]
        rw [ih.1 x hx, ih.2 xs hxs]

theorem decodeContents_enc (c : ChestContents) :
    decodeContents (encodeContents c) = some c := by
  cases c with
  | mk info items =>
    have hl := (decodeItem_enc (sizeOf items)).2 items (le_refl _)
    cases info with
    | mk nm idf ct em v su lm dm =>
      simp only [encodeContents, decodeContents]
      simp +decide [jget, hl, decodeOptStr_enc, decodeOptTheme_enc]

theorem write_to_chest_ok (c : ChestContents) :
    (c.write_to_chest (Chest.new Json)).1 = Except.ok () := rfl

theorem read_back_eq (c : ChestContents) :
    ChestContents.read_from_chest (c.write_to_chest (Chest.new Json)).2
      = Except.ok c := by
  unfold ChestContents.read_from_chest
  have hread : Chest.read (c.write_to_chest (Chest.new Json)).2 CONTENTS_FILE
      = Except.ok (encodeContents c) := rfl
  rw [hread]
  show (match decodeContents (encodeContents c) with
    | some c2 => Except.ok c2
    | none => Except.error (str "invalid manifest")) = Except.ok c
  rw [decodeContents_enc c]

/-- A sample fuzzy matcher used to instantiate the external
code_fuzzy_match parameter on concrete inputs: exact matches score 16. -/
def specFuzzyMatch (name query : Str) : Option Nat :=
  if name = query then some 16 else none

/-- A sample tag map: tag rust with versions 1.70.0 and 1.71.0. -/
def tags0 : List (Str × TagVersions) :=
  [(str "rust", ⟨str "1.71.0", [(str "1.70.0", str "aaa"), (str "1.71.0", str "bbb")]⟩)]

/-- A sample content tree: module Std containing class Vec containing
method push. -/
def stdTree : ChestContents :=
  ⟨⟨str "std", str "id0", str "rust", none, str "1.0", str "index.html", none, none⟩,
   [ChestItem.module ⟨str "Std", str "Std", none⟩
     [ChestItem.object ⟨str "Vec", str "Std::Vec", none, none, ObjectType.class_, []⟩
       [ChestItem.object ⟨str "push", str "Std::Vec::push", none, none, ObjectType.method, []⟩ []]]]⟩

/-- The sample tree in indexed form. -/
def stdIdx : IndexedChestContents := stdTree.to_indexed

/-- A sample content tree with two modules A and B both containing a
class Foo. -/
def twoModTree : ChestContents :=
  ⟨⟨str "t", str "id1", str "t", none, str "1.0", str "i.html", none, none⟩,
   [ChestItem.module ⟨str "A", str "A", none⟩
     [ChestItem.object ⟨str "Foo", str "A::Foo", none, none, ObjectType.class_, []⟩ []],
    ChestItem.module ⟨str "B", str "B", none⟩
     [ChestItem.object ⟨str "Foo", str "B::Foo", none, none, ObjectType.class_, []⟩ []]]⟩


/-- C1: the code contradicts the claim at this input.  Installing version
1.71.10 with identifier ccc into a tag holding 1.70.0 mapped to aaa and
1.71.0 mapped to bbb should set latest_version to the numerically-largest
version key 1.71.10 (third conjunct: sorting the version keys finds it);
instead install sorts the identifier values and stores the identifier ccc
as latest_version, so identifier_for_tag on the bare tag name finds no
version named ccc and returns none. -/
theorem install_latest_version_uses_identifiers :
    Database.install_tag_update tags0 (str "rust") (str "1.71.10") (str "ccc")
      = [(str "rust", ⟨str "ccc",
          [(str "1.70.0", str "aaa"), (str "1.71.0", str "bbb"),
           (str "1.71.10", str "ccc")]⟩)] ∧
    Database.identifier_for_tag
      (⟨str "", [], Database.install_tag_update tags0 (str "rust")
        (str "1.71.10") (str "ccc")⟩ : Database Unit) (str "rust") = none ∧
    (List.insertionSort semverLe
      [str "1.70.0", str "1.71.10", str "1.71.0"]).getLast?
      = some (str "1.71.10") :=
  ⟨by decide, by decide, by decide⟩

/-- C2 counterexample: the third scenario literal fails on the code; an
absolute pattern that differs from the path (here by its leading slash)
never matches, so the call returns none, not some q.css. -/
theorem transform_path_absolute_counterexample :
    Chest.transform_path (str "x/y/z.css") (str "/x/y/z.css") (str "q.css")
      ≠ some (str "q.css") := by decide

/-- C2 (amended): the scenario literals as the code computes them.  The
third call returns none, because a pattern beginning with a slash matches
only a path that is equal to the whole pattern string, slash included
(fifth conjunct); the other literals are as claimed. -/
theorem transform_path_scenario_literals :
    Chest.transform_path (str "x/y/z.css") (str "z.css") (str "w.css")
      = some (str "x/y/w.css") ∧
    Chest.transform_path (str "x/y/z.css") (str "z.css") (str "/q.css")
      = some (str "q.css") ∧
    Chest.transform_path (str "x/y/z.css") (str "/x/y/z.css") (str "q.css")
      = none ∧
    Chest.transform_path (str "x/y/z.css") (str "a.css") (str "b.css")
      = none ∧
    Chest.transform_path (str "/x/y/z.css") (str "/x/y/z.css") (str "q.css")
      = some (str "q.css") :=
  ⟨by decide, by decide, by decide, by decide, by decide⟩

/-- C4 counterexample: extending the query Vec by the segment push yields
the single result Std::Vec::push with score 32, while the query Vec
yields only Std::Vec with score 16: the extended query's result is not in
the original result set, and its score is larger, refuting both halves of
the claimed monotonicity. -/
theorem search_monotonicity_counterexample :
    stdIdx.search specFuzzyMatch ChestPath.root
        (str "Vec" ++ '.' :: str "push") ⟨10⟩
      = [⟨⟨[⟨ChestPathElementType.module, str "Std"⟩,
            ⟨ChestPathElementType.object, str "Vec"⟩,
            ⟨ChestPathElementType.object, str "push"⟩]⟩, 32⟩] ∧
    stdIdx.search specFuzzyMatch ChestPath.root (str "Vec") ⟨10⟩
      = [⟨⟨[⟨ChestPathElementType.module, str "Std"⟩,
            ⟨ChestPathElementType.object, str "Vec"⟩]⟩, 16⟩] :=
  ⟨by decide, by decide⟩

theorem search_segment_extension_descends_witness :
    ((('.' == '.') || ('.' == ':')) = true) ∧ (str "push" ≠ []) ∧
    (∀ c ∈ str "push", ((c == '.') || (c == ':')) = false) ∧
    (splitQuery (str "Vec") ≠ []) ∧
    ((⟨2, 32⟩ : IndexedChestSearchResult) ∈
      stdIdx.search_ids specFuzzyMatch ChestPath.root
        (str "Vec" ++ '.' :: str "push") ⟨10⟩) ∧
    (∃ t ∈ stdIdx.search_raw specFuzzyMatch ChestPath.root (str "Vec"),
      ∃ item, stdIdx.get_by_id t.item = some item ∧
        item.children.1 ≤ 2 ∧ 2 < item.children.2 ∧
        t.score + MIN_SEARCH_SCORE ≤ 32) :=
  ⟨by decide, by decide, by decide, by decide, by decide,
    search_segment_extension_descends stdIdx specFuzzyMatch ChestPath.root
      (str "Vec") '.' (str "push") ⟨10⟩ (by decide) (by decide) (by decide)
      (by decide) ⟨2, 32⟩ (by decide)⟩

/-- C5: every ChestContents value written into a fresh chest with
write_to_chest is stored successfully and read back unchanged by
read_from_chest: the serialised manifest round-trips losslessly. -/
theorem manifest_roundtrip (c : ChestContents) :
    (c.write_to_chest (Chest.new Json)).1 = Except.ok () ∧
    ChestContents.read_from_chest (c.write_to_chest (Chest.new Json)).2
      = Except.ok c :=
  ⟨write_to_chest_ok c, read_back_eq c⟩

/-- C6: in the array produced by to_indexed, every item's parent_path is
exactly its stack of ancestor ids in root-to-parent order (the DFS
ancestor stacks forest_anc of the original tree), and the children range
of item i contains exactly the positions j of which i is an ancestor:
being a descendant of i is equivalent to lying in the half-open range
children_at i. -/
theorem to_indexed_subtree_contiguity (c : ChestContents) :
    (c.to_indexed).items.map (fun it => it.parent_path)
        = ChestItem.forest_anc 0 [] c.items ∧
    ∀ i j, i < (c.to_indexed).items.length → j < (c.to_indexed).items.length →
      (i ∈ (c.to_indexed).parent_path_at j ↔
        ((c.to_indexed).children_at i).1 ≤ j ∧
          j < ((c.to_indexed).children_at i).2) :=
  ⟨(to_indexed_items c).1, to_indexed_anc_range c⟩

theorem to_indexed_subtree_contiguity_witness :
    0 < (stdTree.to_indexed).items.length ∧
    1 < (stdTree.to_indexed).items.length ∧
    (0 ∈ (stdTree.to_indexed).parent_path_at 1 ↔
      ((stdTree.to_indexed).children_at 0).1 ≤ 1 ∧
        1 < ((stdTree.to_indexed).children_at 0).2) :=
  ⟨by decide, by decide,
    (to_indexed_subtree_contiguity stdTree).2 0 1 (by decide) (by decide)⟩

/-- C7: every result returned by IndexedChestContents::search has score
at least MIN_SEARCH_SCORE = 9, for every contents, fuzzy matcher, start
path, query and parameters. -/
theorem search_results_score_floor (cc : IndexedChestContents)
    (fm : Str → Str → Option Nat) (start : ChestPath) (query : Str)
    (parameters : SearchParameters) (r : ChestSearchResult)
    (hr : r ∈ cc.search fm start query parameters) :
    MIN_SEARCH_SCORE ≤ r.score := by
  unfold IndexedChestContents.search at hr
  rw [List.mem_filterMap] at hr
  obtain ⟨ri, hri, hmap⟩ := hr
  have h2 := search_raw_score_floor cc fm start query
    (mem_search_ids_sub cc fm start query parameters hri)
  cases hp : cc.path_for_id ri.item with
  | none =>
    rw [hp] at hmap
    exact Option.noConfusion hmap
  | some p =>
    rw [hp] at hmap
    simp only [Option.map_some'] at hmap
    injection hmap with h
    subst h
    exact h2

/-- The concrete search result used to witness the score floor. -/
def floorSampleResult : ChestSearchResult :=
  ⟨⟨[⟨ChestPathElementType.module, str "Std"⟩,
     ⟨ChestPathElementType.object, str "Vec"⟩]⟩, 16⟩

theorem search_results_score_floor_witness :
    floorSampleResult ∈
      stdIdx.search specFuzzyMatch ChestPath.root (str "Vec") ⟨10⟩ ∧
    MIN_SEARCH_SCORE ≤ floorSampleResult.score :=
  ⟨by decide, search_results_score_floor stdIdx specFuzzyMatch ChestPath.root
    (str "Vec") ⟨10⟩ floorSampleResult (by decide)⟩

/-- C8 counterexample: a name containing a slash does not make write fail
with InvalidName; the slash instead splits the name into components, so
writing a slash plus name x/y under a succeeds, creating a/x/y. -/
theorem write_slash_name_counterexample :
    ((Chest.new Unit).write (str "a/" ++ str "x/y") ()).1 = Except.ok () := by
  decide

/-- C8 (amended): for every name that contains no slash and is empty or
contains an ASCII control character or one of the other rejected
characters, writing a slash plus that name under component a fails with
one of the two InvalidName messages, provided no file already occupies
the entry a itself (a name containing a slash is instead split into
separate path components). -/
theorem write_invalid_name_claim (chest : Chest Unit) (name : Str)
    (data : Unit) (hslash : '/' ∉ name)
    (hbad : name = [] ∨ name.any invalidNameChar = true)
    (hroot : ∀ f, btGet chest.root (str "a")
      ≠ some (ChestDirectoryEntry.file f)) :
    invalidNameError (chest.write (str "a/" ++ name) data).1 :=
  write_invalid_component chest name data hslash hbad hroot

theorem write_invalid_name_claim_witness :
    ('/' ∉ str "*x") ∧
    (str "*x" = [] ∨ (str "*x").any invalidNameChar = true) ∧
    invalidNameError (((Chest.new Unit).write (str "a/" ++ str "*x") ()).1) :=
  ⟨by decide, by decide,
    write_invalid_name_claim (Chest.new Unit) (str "*x") () (by decide)
      (by decide) (fun f h => Option.noConfusion h)⟩

/-- C9 counterexample: a trailing slash is not normalised away by
contains: after writing a/b.txt the chest contains a/b.txt but does not
contain a/b.txt followed by a slash, so the claimed three-way equality
fails at its third member. -/
theorem contains_trailing_slash_counterexample :
    ((Chest.new Unit).write (str "a/b.txt") ()).2.contains (str "a/b.txt")
        = true ∧
    ((Chest.new Unit).write (str "a/b.txt") ()).2.contains
        (str "a/b.txt" ++ str "/") = false :=
  ⟨by decide, by decide⟩

/-- C9 (amended): a leading slash is tolerated and normalised — contains
of slash plus p equals contains of p whenever p does not itself begin
with a slash — but a trailing slash is not: in a chest whose directory
tree has no empty names (as every chest built through the public write
API does), contains of p plus a trailing slash is always false. -/
theorem contains_slash_normalisation (chest : Chest Unit) (p : Str)
    (hh : p.head? ≠ some '/') (hne : noEmptyNamesDir chest.root = true) :
    chest.contains ('/' :: p) = chest.contains p ∧
    chest.contains (p ++ ['/']) = false :=
  ⟨contains_cons_slash chest p hh, contains_append_slash chest p hne⟩

theorem contains_slash_normalisation_witness :
    ((str "a/b.txt").head? ≠ some '/') ∧
    (noEmptyNamesDir ((Chest.new Unit).write (str "a/b.txt") ()).2.root
      = true) ∧
    (((Chest.new Unit).write (str "a/b.txt") ()).2.contains
          ('/' :: str "a/b.txt")
        = ((Chest.new Unit).write (str "a/b.txt") ()).2.contains
          (str "a/b.txt") ∧
      ((Chest.new Unit).write (str "a/b.txt") ()).2.contains
          (str "a/b.txt" ++ ['/']) = false) :=
  ⟨by decide, by decide,
    contains_slash_normalisation _ _ (by decide) (by decide)⟩

/-- C10: the code contradicts the claim.  Removing x/y/z from an empty
chest fails with Path not found, yet the failed remove creates the
intermediate directories: before the call list_dir x also fails, after
the call list_dir x succeeds and shows the newly created directory y. -/
theorem remove_failure_creates_directories :
    ((Chest.new Unit).remove (str "x/y/z")).1
        = Except.error (str "Path not found") ∧
    (Chest.new Unit).list_dir (str "x")
        = Except.error (str "Path not found") ∧
    ((Chest.new Unit).remove (str "x/y/z")).2.list_dir (str "x")
        = Except.ok [ChestListEntry.directory (str "y")] :=
  ⟨by decide, by decide, by decide⟩
